import Mathlib

/-!
Verification of the ETL pipeline in `src/dw_local_prototype.py`.

The program is a pandas/sqlite batch pipeline.  We shallowly embed the
dataframes and the operations the pipeline performs on them:

* a cell value (`Value`) is null (NaN/NaT), a string, a number (pandas
  unifies int/float columns on concatenation, so a single rational-valued
  numeric constructor models numeric equality the way pandas comparisons,
  `drop_duplicates` and `merge` see it), or a parsed date;
* a dataframe (`DF`) is a list of column labels plus a list of rows
  (each row a list of values, positionally aligned with the labels);
* `pd.concat` aligns on the union of the columns (missing cells become
  null), `drop_duplicates` keeps the first occurrence per key
  (pandas treats nulls in key columns as equal to each other, both in
  `drop_duplicates` and in `merge`), `merge` is an inner equi-join.

`transform_to_core` and `build_semantic_layer` are then translated
statement by statement from the source.
-/

namespace DW

/-- A pandas cell value.  `num` carries a rational: pandas unifies
integer and floating columns, and compares numeric key values by
numeric equality in `drop_duplicates`/`merge`.  `date` is a parsed
`Timestamp` (year, month, day); `null` is NaN/NaT/None. -/
inductive Value where
  | null : Value
  | str (s : String) : Value
  | num (q : Rat) : Value
  | date (y m d : Nat) : Value
deriving DecidableEq

/-- A dataframe: column labels and positionally aligned rows. -/
@[ext]

structure DF where
  cols : List String
  rows : List (List Value)
deriving DecidableEq

instance {ε α : Type} [DecidableEq ε] [DecidableEq α] : DecidableEq (Except ε α) := fun a b =>
  match a, b with
  | .error x, .error y =>
    if h : x = y then isTrue (by rw [h]) else isFalse (fun hh => h (Except.error.inj hh))
  | .ok x, .ok y =>
    if h : x = y then isTrue (by rw [h]) else isFalse (fun hh => h (Except.ok.inj hh))
  | .error _, .ok _ => isFalse (fun hh => Except.noConfusion hh)
  | .ok _, .error _ => isFalse (fun hh => Except.noConfusion hh)

/-- The empty dataframe `pd.DataFrame()`. -/
def emptyDF : DF := ⟨[], []⟩

/-- Pandas `DataFrame.empty`: true when either axis has length zero. -/
def DF.isEmptyDF (df : DF) : Bool := df.rows.isEmpty || df.cols.isEmpty

/-- Well-formedness: every row has exactly one cell per column. -/
def DF.Wf (df : DF) : Prop := ∀ r ∈ df.rows, r.length = df.cols.length

/-- Index of the first column with the given label, if any. -/
def colIdx : List String → String → Option Nat
  | [], _ => none
  | c' :: cs, c => if c' = c then some 0 else (colIdx cs c).map (· + 1)

/-- Value of a row at a labelled column; null when the label is absent
(this is how `pd.concat` fills cells of columns a piece lacks). -/
def getVal (cols : List String) (r : List Value) (c : String) : Value :=
  match colIdx cols c with
  | some i => r.getD i .null
  | none => .null

/-- The values of one column of a dataframe, in row order. -/
def colValues (df : DF) (c : String) : List Value :=
  df.rows.map (fun r => getVal df.cols r c)

/-- Projection of a row onto a list of column labels. -/
def keyTuple (cols : List String) (ks : List String) (r : List Value) : List Value :=
  ks.map (getVal cols r)

/-- Fuelled worker for `keepFirstBy` (the fuel keeps the recursion
structural, so that the function evaluates by reduction). -/
def keepFirstByFuel {α κ : Type} [DecidableEq κ] (f : α → κ) : Nat → List α → List α
  | _, [] => []
  | 0, _ :: _ => []
  | n + 1, x :: xs => x :: keepFirstByFuel f n (xs.filter (fun y => f y ≠ f x))

/-- Pandas `drop_duplicates(keep='first')` keyed by `f`: the first row
with each key survives, later rows with an already-seen key are dropped.
Null key values compare equal to each other, as pandas does in
`drop_duplicates`. -/
def keepFirstBy {α κ : Type} [DecidableEq κ] (f : α → κ) (l : List α) : List α :=
  keepFirstByFuel f l.length l

/-- ASCII uppercase of one character, as `str.upper` acts on the
column labels of this dataset. -/
def upperChar (c : Char) : Char :=
  if 'a' ≤ c ∧ c ≤ 'z' then Char.ofNat (c.toNat - 32) else c

/-- `str.upper` on a label. -/
def upperStr (s : String) : String := ⟨s.data.map upperChar⟩

def isSpaceChar (c : Char) : Bool := c = ' ' || c = '\t' || c = '\n' || c = '\r'

/-- `str.strip` on a label: drop leading and trailing whitespace. -/
def trimStr (s : String) : String :=
  ⟨((s.data.dropWhile isSpaceChar).reverse.dropWhile isSpaceChar).reverse⟩

/-- `.str.strip().str.upper()` applied to one column label. -/
def normalizeLabel (s : String) : String := upperStr (trimStr s)

def digitsToNat (cs : List Char) : Nat :=
  cs.foldl (fun a c => 10 * a + (c.toNat - 48)) 0

def isLeapYear (y : Nat) : Bool :=
  y % 4 == 0 && (y % 100 != 0 || y % 400 == 0)

def daysInMonth (y m : Nat) : Nat :=
  if m = 2 then (if isLeapYear y then 29 else 28)
  else if m = 4 ∨ m = 6 ∨ m = 9 ∨ m = 11 then 30
  else 31

/-- The year slice of an 8-digit date string. -/
def ySlice (s : String) : Nat := digitsToNat (s.data.take 4)

/-- The month slice of an 8-digit date string. -/
def mSlice (s : String) : Nat := digitsToNat ((s.data.drop 4).take 2)

/-- The day slice of an 8-digit date string. -/
def dSlice (s : String) : Nat := digitsToNat (s.data.drop 6)

/-- Lexicographic order on (year, month, day) triples. -/
def dateTripleLe (y1 m1 d1 y2 m2 d2 : Nat) : Bool :=
  y1 < y2 || (y1 = y2 && (m1 < m2 || (m1 = m2 && d1 ≤ d2)))

/-- The dates a pandas `datetime64[ns]` timestamp can represent at
midnight: `Timestamp.min` is 1677-09-21 00:12:43, so the first whole
representable day is 1677-09-22; `Timestamp.max` is
2262-04-11 23:47:16, so the last is 2262-04-11.  With
`errors='coerce'`, `pd.to_datetime` turns dates outside this range
(`OutOfBoundsDatetime`) into NaT. -/
def inDatetime64Range (y m d : Nat) : Bool :=
  dateTripleLe 1677 9 22 y m d && dateTripleLe y m d 2262 4 11

/-- Strict `%Y%m%d` parse: exactly eight digit characters forming a
valid calendar year-month-day that is representable as a
`datetime64[ns]` timestamp; anything else fails (and the caller
coerces the failure — bad shape, bad calendar date, or an
out-of-bounds date — to null, never raising). -/
def parseYYYYMMDD (s : String) : Option (Nat × Nat × Nat) :=
  if s.data.length = 8 ∧ s.data.all Char.isDigit then
    if 1 ≤ mSlice s ∧ mSlice s ≤ 12 ∧ 1 ≤ dSlice s ∧
        dSlice s ≤ daysInMonth (ySlice s) (mSlice s) then
      if inDatetime64Range (ySlice s) (mSlice s) (dSlice s) then
        some (ySlice s, mSlice s, dSlice s)
      else none
    else none
  else none

/-- The `astype(str)` rendering of a cell.  Nulls print as "nan",
integral numbers as their digit string, non-integral numbers with a
decimal point (so they never match the 8-digit date format), parsed
dates with dashes. -/
def valueToStr : Value → String
  | .null => "nan"
  | .str s => s
  | .num q => if q.den = 1 then toString q.num
              else toString q.num ++ "." ++ toString q.den
  | .date y m d => toString y ++ "-" ++ toString m ++ "-" ++ toString d

/-- One cell of
`pd.to_datetime(col.astype(str), format='%Y%m%d', errors='coerce')`:
parse-or-null, total, never raises. -/
def parseFechaValue (v : Value) : Value :=
  match parseYYYYMMDD (valueToStr v) with
  | some (y, m, d) => .date y m d
  | none => .null

/-- Parse an optional sign, digits, and an optional fraction part;
other shapes (the ones `to_numeric` also rejects) become none. -/
def parseNumericStr (s : String) : Option Rat :=
  let cs := (trimStr s).data
  let signed : Bool × List Char :=
    match cs with
    | '-' :: t => (true, t)
    | '+' :: t => (false, t)
    | t => (false, t)
  let intPart := signed.2.takeWhile Char.isDigit
  let rest := signed.2.dropWhile Char.isDigit
  if intPart.isEmpty then none
  else
    let base : Rat := digitsToNat intPart
    let sgn : Rat := if signed.1 then -1 else 1
    match rest with
    | [] => some (sgn * base)
    | '.' :: frac =>
      if frac.all Char.isDigit then
        some (sgn * (base + (digitsToNat frac : Rat) / ((10 : Rat) ^ frac.length)))
      else none
    | _ => none

/-- One cell of `pd.to_numeric(col, errors='coerce')`. -/
def coerceVal : Value → Value
  | .num q => .num q
  | .null => .null
  | .date _ _ _ => .null
  | .str s =>
    match parseNumericStr s with
    | some q => .num q
    | none => .null

/-- One cell of `fillna(0)`. -/
def fillZero (v : Value) : Value := if v = .null then .num 0 else v

/-- One cell of `fillna('Unknown')`. -/
def fillUnknown (v : Value) : Value := if v = .null then .str "Unknown" else v

/-- Update position `i?` of a row through `f` (no-op when the column
is absent). -/
def setIdx (i? : Option Nat) (f : Value → Value) (r : List Value) : List Value :=
  match i? with
  | some i => r.set i (f (r.getD i .null))
  | none => r

/-- `df[c] = df[c].map(f)`-style column update, a no-op when the
column is absent (the source guards these updates with
`if col in all_data.columns`). -/
def setColIfPresent (df : DF) (c : String) (f : Value → Value) : DF :=
  ⟨df.cols, df.rows.map (setIdx (colIdx df.cols c) f)⟩

/-- `df.rename(columns={old: new})`. -/
def renameCol (df : DF) (old new : String) : DF :=
  ⟨df.cols.map (fun c => if c = old then new else c), df.rows⟩

/-- `df.columns = df.columns.str.strip().str.upper()`. -/
def normalizeCols (df : DF) : DF :=
  ⟨df.cols.map normalizeLabel, df.rows⟩

/-- Union of the column labels in encounter order, as
`pd.concat(..., join='outer', sort=False)` aligns frames. -/
def unionCols (dfs : List DF) : List String :=
  dfs.foldl (fun acc d => acc ++ d.cols.filter (fun c => !(acc.contains c))) []

/-- `pd.concat(dfs, ignore_index=True)` on a non-empty list of frames:
rows in order, cells of absent columns filled with null. -/
def concatDFs (dfs : List DF) : DF :=
  let cols := unionCols dfs
  ⟨cols, dfs.flatMap (fun d => d.rows.map (fun r => cols.map (getVal d.cols r)))⟩

/-- The canonical serial-number fix: `NUM_SERIE` is checked (and
renamed) before `NUMERO SERIE`. -/
def reconcileSerie (df : DF) : DF :=
  if df.cols.contains "NUM_SERIE" then renameCol df "NUM_SERIE" "NUMERO_SERIE"
  else if df.cols.contains "NUMERO SERIE" then
    renameCol df "NUMERO SERIE" "NUMERO_SERIE"
  else df

def requiredCols : List String := ["NUMERO_FORMULARIO", "NUMERO_SERIE"]

def numericCols : List String :=
  ["CANTIDAD_UNIDADES_FISICAS", "PESO_BRUTO_KGS", "PESO_NETO_KGS",
   "VALOR_FOB_USD", "VALOR_FOB_PESOS"]

def fechaCol : String := "FECHA_DECLARACION_EXPORTACION"

/-- `all_data[FECHA] = pd.to_datetime(all_data[FECHA].astype(str), ...)`;
reading the column raises a KeyError (none) when it is absent. -/
def parseDateCol (df : DF) : Option DF :=
  match colIdx df.cols fechaCol with
  | some _ => some (setColIfPresent df fechaCol parseFechaValue)
  | none => none

/-- The `for col in numeric_cols: if col in columns: to_numeric` loop. -/
def coerceNumerics (df : DF) : DF :=
  numericCols.foldl (fun d c => setColIfPresent d c coerceVal) df

/-- `drop_duplicates(subset=['NUMERO_FORMULARIO', 'NUMERO_SERIE'])`. -/
def dedupKeys (df : DF) : DF :=
  ⟨df.cols, keepFirstBy (keyTuple df.cols requiredCols) df.rows⟩

/-- The null-filling block: measures to 0, destination country name to
"Unknown". -/
def fillNulls (df : DF) : DF :=
  setColIfPresent
    (numericCols.foldl (fun d c => setColIfPresent d c fillZero) df)
    "PAIS_DESTINO_FINAL" fillUnknown

/-- Log lines `transform_to_core` emits. -/
inductive LogEvent where
  | noStagingData : LogEvent
  | missingColumns (cols : List String) : LogEvent
deriving DecidableEq

/-- `transform_to_core`, translated statement by statement.
`pd.concat` of an empty list raises
`ValueError: No objects to concatenate`, modelled as `.error`; the
explicit early returns of the source return `.ok` together with the
log lines they emit. -/
def transform_to_core (staging : List DF) : List LogEvent × Except String DF :=
  match staging.filter (fun d => !d.isEmptyDF) with
  | [] => ([], .error "No objects to concatenate")
  | d :: ds =>
    let all0 := concatDFs (d :: ds)
    if all0.isEmptyDF then ([.noStagingData], .ok emptyDF)
    else
      let c1 := reconcileSerie (normalizeCols all0)
      let missing := requiredCols.filter (fun c => !(c1.cols.contains c))
      if missing.isEmpty then
        match parseDateCol c1 with
        | some c2 => ([], .ok (fillNulls (dedupKeys (coerceNumerics c2))))
        | none => ([], .error "KeyError")
      else ([.missingColumns missing], .ok emptyDF)

/-- Stage view of the pipeline: the concatenated, label-normalized,
serial-reconciled frame (the state of `all_data` after the column fix
block), when the run reaches that point. -/
def reconStage (staging : List DF) : Option DF :=
  match staging.filter (fun d => !d.isEmptyDF) with
  | [] => none
  | d :: ds =>
    let all0 := concatDFs (d :: ds)
    if all0.isEmptyDF then none
    else some (reconcileSerie (normalizeCols all0))

/-- After the required-key validation. -/
def keyedStage (staging : List DF) : Option DF :=
  (reconStage staging).bind fun c1 =>
    if (requiredCols.filter (fun c => !(c1.cols.contains c))).isEmpty
    then some c1 else none

/-- After date parsing. -/
def parsedStage (staging : List DF) : Option DF :=
  (keyedStage staging).bind parseDateCol

/-- After numeric coercion and deduplication (the frame the
null-filling block receives). -/
def dedupStage (staging : List DF) : Option DF :=
  (parsedStage staging).map (fun c2 => dedupKeys (coerceNumerics c2))

/-- A one-period staging input whose frame lacks the serial-number
column entirely. -/
def stagingMissingSerie : List DF := [⟨["NUMERO_FORMULARIO"], [[Value.num 1]]⟩]

/-- The reconciled frame for `stagingMissingSerie`. -/
def reconMissingSerie : DF := ⟨["NUMERO_FORMULARIO"], [[Value.num 1]]⟩

/-- Date parsing, per row. -/
def rowParse (cols : List String) (r : List Value) : List Value :=
  setIdx (colIdx cols fechaCol) parseFechaValue r

/-- Numeric coercion, per row. -/
def rowCoerce (cols : List String) (r : List Value) : List Value :=
  numericCols.foldl (fun r' c => setIdx (colIdx cols c) coerceVal r') r

/-- Null filling, per row. -/
def rowFill (cols : List String) (r : List Value) : List Value :=
  setIdx (colIdx cols "PAIS_DESTINO_FINAL") fillUnknown
    (numericCols.foldl (fun r' c => setIdx (colIdx cols c) fillZero r') r)

/-- Everything the pipeline does to a surviving row after
concatenation and column reconciliation. -/
def rowClean (cols : List String) (r : List Value) : List Value :=
  rowFill cols (rowCoerce cols (rowParse cols r))

/-- Two one-row periods carrying the same (form, serial) key with
different FOB values. -/
def stagingDup : List DF :=
  [⟨["NUMERO_FORMULARIO", "NUMERO_SERIE", "FECHA_DECLARACION_EXPORTACION", "VALOR_FOB_USD"],
    [[Value.num 1, Value.num 7, Value.str "20250101", Value.num 100]]⟩,
   ⟨["NUMERO_FORMULARIO", "NUMERO_SERIE", "FECHA_DECLARACION_EXPORTACION", "VALOR_FOB_USD"],
    [[Value.num 1, Value.num 7, Value.str "20250201", Value.num 200]]⟩]

/-- The reconciled concatenation of `stagingDup`. -/
def catDup : DF :=
  ⟨["NUMERO_FORMULARIO", "NUMERO_SERIE", "FECHA_DECLARACION_EXPORTACION", "VALOR_FOB_USD"],
   [[Value.num 1, Value.num 7, Value.str "20250101", Value.num 100],
    [Value.num 1, Value.num 7, Value.str "20250201", Value.num 200]]⟩

/-- The frame `transform_to_core` returns on `stagingDup`. -/
def outDup : DF :=
  match (transform_to_core stagingDup).2 with
  | .ok d => d
  | .error _ => emptyDF

/-- One period holding two rows whose form and serial numbers are both
null, with different dates. -/
def stagingNulls : List DF :=
  [⟨["NUMERO_FORMULARIO", "NUMERO_SERIE", "FECHA_DECLARACION_EXPORTACION"],
    [[Value.null, Value.null, Value.str "20250101"],
     [Value.null, Value.null, Value.str "20250202"]]⟩]

/-- The reconciled concatenation of `stagingNulls`. -/
def catNulls : DF :=
  ⟨["NUMERO_FORMULARIO", "NUMERO_SERIE", "FECHA_DECLARACION_EXPORTACION"],
   [[Value.null, Value.null, Value.str "20250101"],
    [Value.null, Value.null, Value.str "20250202"]]⟩

/-- The frame `transform_to_core` returns on `stagingNulls`. -/
def outNulls : DF :=
  match (transform_to_core stagingNulls).2 with
  | .ok d => d
  | .error _ => emptyDF

/-- `df[cs]` column selection (pandas raises a KeyError when a label
is absent; `build_semantic_layer` guards presence, see below). -/
def projDF (df : DF) (cs : List String) : DF :=
  ⟨cs, df.rows.map (fun r => cs.map (getVal df.cols r))⟩

/-- `drop_duplicates()` over whole rows (`reset_index(drop=True)` is a
no-op in this model). -/
def dropDupRows (df : DF) : DF := ⟨df.cols, keepFirstBy id df.rows⟩

/-- `dim.index + 1` starting from `i`. -/
def addIdRows : Nat → List (List Value) → List (List Value)
  | _, [] => []
  | i, r :: rs => (r ++ [Value.num (i : Rat)]) :: addIdRows (i + 1) rs

/-- `dim[name] = dim.index + 1`. -/
def addIdCol (df : DF) (name : String) : DF :=
  ⟨df.cols ++ [name], addIdRows 1 df.rows⟩

/-- `dim[name] = f(dim[src])` (the `.dt.year/month/day` columns). -/
def addColBy (df : DF) (name : String) (f : Value → Value) (src : String) : DF :=
  ⟨df.cols ++ [name], df.rows.map (fun r => r ++ [f (getVal df.cols r src)])⟩

/-- `.dt.year` of a cell (`NaT.year` is null). -/
def dtYear : Value → Value
  | .date y _ _ => .num (y : Rat)
  | _ => .null

/-- `.dt.month` of a cell. -/
def dtMonth : Value → Value
  | .date _ m _ => .num (m : Rat)
  | _ => .null

/-- `.dt.day` of a cell. -/
def dtDay : Value → Value
  | .date _ _ d => .num (d : Rat)
  | _ => .null

def timeCols : List String := [fechaCol]

def empresaCols : List String :=
  ["NIT_EXPORTADOR", "RAZON_SOCIAL_EXPORTADOR", "DIREC_EXPORTADOR"]

def paisCols : List String := ["COD_PAIS_DESTINO", "PAIS_DESTINO_FINAL"]

def mercanciaCols : List String := ["SUBPARTIDA"]

def factCols : List String :=
  ["TIME_ID", "EMPRESA_ID", "PAIS_ID", "MERCANCIA_ID",
   "VALOR_FOB_USD", "PESO_NETO_KGS", "CANTIDAD_UNIDADES_FISICAS",
   "NUMERO_FORMULARIO"]

/-- Distinct attribute tuples with a 1-based surrogate key. -/
def dimBase (core : DF) (cs : List String) (idname : String) : DF :=
  addIdCol (dropDupRows (projDF core cs)) idname

/-- `DIM_TIME`: distinct dates, surrogate key, then derived
year/month/day columns. -/
def dimTimeOf (core : DF) : DF :=
  addColBy (addColBy (addColBy (dimBase core timeCols "TIME_ID")
    "YEAR" dtYear fechaCol) "MONTH" dtMonth fechaCol) "DAY" dtDay fechaCol

def dimEmpresaOf (core : DF) : DF := dimBase core empresaCols "EMPRESA_ID"

def dimPaisOf (core : DF) : DF := dimBase core paisCols "PAIS_ID"

def dimMercanciaOf (core : DF) : DF := dimBase core mercanciaCols "MERCANCIA_ID"

/-- `left.merge(right, on=ks)`: inner equi-join; pandas matches null
key values to each other, which the `Value` equality of the filter
reproduces.  Non-key columns of the right frame are appended (the
source never has overlapping non-key labels, see `GenDisjoint`). -/
def mergeDF (l r : DF) (ks : List String) : DF :=
  ⟨l.cols ++ r.cols.filter (fun c => !(ks.contains c)),
   l.rows.flatMap (fun lr =>
     (r.rows.filter (fun rr =>
        decide (keyTuple r.cols ks rr = keyTuple l.cols ks lr))).map
       (fun rr => lr ++ (r.cols.filter (fun c => !(ks.contains c))).map (getVal r.cols rr)))⟩

/-- The fact table: the core frame inner-joined against the four
dimensions, projected onto the surrogate keys, measures and form
number. -/
def factOf (core : DF) : DF :=
  projDF
    (mergeDF
      (mergeDF
        (mergeDF
          (mergeDF core (dimTimeOf core) timeCols)
          (dimEmpresaOf core) empresaCols)
        (dimPaisOf core) paisCols)
      (dimMercanciaOf core) mercanciaCols)
    factCols

/-- The five tables `build_semantic_layer` writes. -/
structure SemLayer where
  dim_time : DF
  dim_empresa : DF
  dim_pais : DF
  dim_mercancia : DF
  fact : DF
deriving DecidableEq

/-- Every core column the builder reads. -/
def semCols : List String :=
  timeCols ++ empresaCols ++ paisCols ++ mercanciaCols ++
    ["VALOR_FOB_USD", "PESO_NETO_KGS", "CANTIDAD_UNIDADES_FISICAS",
     "NUMERO_FORMULARIO"]

/-- `build_semantic_layer`: no-op (with an error log) on an empty core
frame, a KeyError if a column it reads is absent, otherwise the four
dimensions and the fact table. -/
def build_semantic_layer (core : DF) : Except String (Option SemLayer) :=
  if core.isEmptyDF then .ok none
  else if semCols.all (fun c => core.cols.contains c) then
    .ok (some ⟨dimTimeOf core, dimEmpresaOf core, dimPaisOf core,
      dimMercanciaOf core, factOf core⟩)
  else .error "KeyError"

/-- The columns the builder adds; the model (and the pandas merge
without suffixing) assumes they do not collide with core columns. -/
def genCols : List String :=
  ["TIME_ID", "YEAR", "MONTH", "DAY", "EMPRESA_ID", "PAIS_ID", "MERCANCIA_ID"]

/-- No generated column label already occurs in the core frame. -/
def GenDisjoint (core : DF) : Prop := ∀ c ∈ genCols, c ∉ core.cols

/-- A cell that is a parsed date or null. -/
def isDateOrNull : Value → Bool
  | .null => true
  | .date _ _ _ => true
  | _ => false

/-- The declaration-date column holds parsed dates or nulls (true of
every frame the transform stage produces; pandas `.dt` accessors
require it). -/
def FechaTyped (core : DF) : Prop :=
  ∀ v ∈ colValues core fechaCol, isDateOrNull v = true

/-- Number of distinct defining-attribute tuples of a dimension in the
integrated frame. -/
def distinctTuples (core : DF) (cs : List String) : Nat :=
  ((core.rows.map (fun r => keyTuple core.cols cs r)).toFinset).card

instance (df : DF) : Decidable df.Wf :=
  inferInstanceAs (Decidable (∀ r ∈ df.rows, r.length = df.cols.length))

instance (core : DF) : Decidable (FechaTyped core) :=
  inferInstanceAs (Decidable (∀ v ∈ colValues core fechaCol, isDateOrNull v = true))

instance (core : DF) : Decidable (GenDisjoint core) :=
  inferInstanceAs (Decidable (∀ c ∈ genCols, c ∉ core.cols))

/-- Invariant along the chain of merges: columns extend the core
columns on the right, and every row is full-width and agrees with some
core row on every core column. -/
def MergeInv (core l : DF) : Prop :=
  (∃ E, l.cols = core.cols ++ E) ∧
    ∀ lr ∈ l.rows, lr.length = l.cols.length ∧
      ∃ cr ∈ core.rows, ∀ c ∈ core.cols, getVal l.cols lr c = getVal core.cols cr c

/-- A two-row integrated frame; the second row's declaration date is
null (an unparsable date left by the transform stage). -/
def core0 : DF :=
  ⟨["FECHA_DECLARACION_EXPORTACION", "NIT_EXPORTADOR",
    "RAZON_SOCIAL_EXPORTADOR", "DIREC_EXPORTADOR", "COD_PAIS_DESTINO",
    "PAIS_DESTINO_FINAL", "SUBPARTIDA", "VALOR_FOB_USD", "PESO_NETO_KGS",
    "CANTIDAD_UNIDADES_FISICAS", "NUMERO_FORMULARIO"],
   [[Value.date 2025 1 1, Value.num 900, Value.str "ACME",
     Value.str "CALLE 1", Value.str "US", Value.str "ESTADOS UNIDOS",
     Value.num 101, Value.num 1000, Value.num 10, Value.num 1, Value.num 1],
    [Value.null, Value.num 900, Value.str "ACME",
     Value.str "CALLE 1", Value.str "US", Value.str "ESTADOS UNIDOS",
     Value.num 101, Value.num 2000, Value.num 20, Value.num 2, Value.num 2]]⟩

/-- The semantic layer built from `core0`. -/
def layer0 : SemLayer :=
  match build_semantic_layer core0 with
  | .ok (some L) => L
  | _ => ⟨emptyDF, emptyDF, emptyDF, emptyDF, emptyDF⟩

/-- One period with a null FOB value and a null destination country
name, plus an unparsable date that stays null through the fill. -/
def stagingFill : List DF :=
  [⟨["NUMERO_FORMULARIO", "NUMERO_SERIE", "FECHA_DECLARACION_EXPORTACION",
     "VALOR_FOB_USD", "PAIS_DESTINO_FINAL"],
    [[Value.num 1, Value.num 1, Value.str "bad-date", Value.null, Value.null]]⟩]

/-- The frame the deduplication stage hands to the null-filling block
on `stagingFill`. -/
def preFill : DF :=
  match dedupStage stagingFill with
  | some d => d
  | none => emptyDF

/-- The frame `transform_to_core` returns on `stagingFill`. -/
def outFill : DF :=
  match (transform_to_core stagingFill).2 with
  | .ok d => d
  | .error _ => emptyDF

/-- A small heap of dataframes, for the frame-effect claim:
`core_df[[cols]].drop_duplicates()...` returns a fresh copy (a new
cell), and every in-place column assignment targets only cells
allocated inside `build_semantic_layer`. -/
structure Store where
  dfs : List DF
deriving DecidableEq

/-- Dereference a frame (out-of-range reads give the empty frame). -/
def Store.readDF (s : Store) (i : Nat) : DF := s.dfs.getD i emptyDF

/-- Allocate a fresh frame, returning its reference. -/
def Store.allocDF (s : Store) (d : DF) : Store × Nat :=
  (⟨s.dfs ++ [d]⟩, s.dfs.length)

/-- Overwrite the frame at a reference (an in-place pandas update). -/
def Store.writeDF (s : Store) (i : Nat) (d : DF) : Store := ⟨s.dfs.set i d⟩

/-- `dim[idname] = dim.index + 1` applied in place to a freshly
allocated cell. -/
def idWrite (a : Store × Nat) (idname : String) : Store × Nat :=
  ((a.1).writeDF a.2 (addIdCol ((a.1).readDF a.2) idname), a.2)

/-- `dim = core_df[[cols]].drop_duplicates().reset_index(drop=True)`
followed by the in-place `dim[idname] = dim.index + 1`: one fresh
allocation, one write to that fresh cell. -/
def allocDim (s : Store) (cdf : DF) (cs : List String) (idname : String) :
    Store × Nat :=
  idWrite (s.allocDF (dropDupRows (projDF cdf cs))) idname

/-- One in-place `dim_time[name] = dim_time[FECHA].dt...` write. -/
def derWrite (s : Store) (t : Nat) (name : String) (f : Value → Value) : Store :=
  s.writeDF t (addColBy (s.readDF t) name f fechaCol)

/-- The three derived-column writes of the time dimension. -/
def addTimeDerived (s : Store) (t : Nat) : Store :=
  derWrite (derWrite (derWrite s t "YEAR" dtYear) t "MONTH" dtMonth) t "DAY" dtDay

/-- The time-dimension block of the builder. -/
def stageTime (s : Store) (cdf : DF) : Store × Nat :=
  (addTimeDerived (allocDim s cdf timeCols "TIME_ID").1
    (allocDim s cdf timeCols "TIME_ID").2,
   (allocDim s cdf timeCols "TIME_ID").2)

/-- One rebinding `fact = fact.merge(dim, on=ks)`: a fresh allocation,
no in-place write. -/
def factStep (b : Store × Nat) (r : Nat) (ks : List String) : Store × Nat :=
  (b.1).allocDF (mergeDF ((b.1).readDF b.2) ((b.1).readDF r) ks)

/-- The four rebinding merge statements building the fact frame. -/
def stageFactMerges (s : Store) (core t e p m : Nat) : Store × Nat :=
  factStep (factStep (factStep
    (s.allocDF (mergeDF (s.readDF core) (s.readDF t) timeCols))
    e empresaCols) p paisCols) m mercanciaCols

/-- `build_semantic_layer`, statement by statement, over the heap:
each `core_df[[...]].drop_duplicates().reset_index(drop=True)`
allocates a copy, each `dim['X'] = ...` writes that copy in place,
each `fact = ...merge(...)` / `fact = fact[[...]]` allocates and
rebinds.  A missing column raises (`.error`) leaving the heap as the
statements before it left it; an empty core frame returns without
touching anything.  Returns the references of the four dimension
frames and the fact frame. -/
def buildSemState (s : Store) (core : Nat) :
    Store × Except String (Option (Nat × Nat × Nat × Nat × Nat)) :=
  if (s.readDF core).isEmptyDF then (s, .ok none)
  else if timeCols.all (fun c => (s.readDF core).cols.contains c) then
    match stageTime s (s.readDF core) with
    | (s4, t) =>
      if empresaCols.all (fun c => (s.readDF core).cols.contains c) then
        match allocDim s4 (s.readDF core) empresaCols "EMPRESA_ID" with
        | (s5, e) =>
          if paisCols.all (fun c => (s.readDF core).cols.contains c) then
            match allocDim s5 (s.readDF core) paisCols "PAIS_ID" with
            | (s6, p) =>
              if mercanciaCols.all (fun c => (s.readDF core).cols.contains c) then
                match allocDim s6 (s.readDF core) mercanciaCols "MERCANCIA_ID" with
                | (s7, m) =>
                  match stageFactMerges s7 core t e p m with
                  | (s11, f4) =>
                    if factCols.all (fun c => ((s11.readDF f4).cols).contains c) then
                      match s11.allocDF (projDF (s11.readDF f4) factCols) with
                      | (s12, f) => (s12, .ok (some (t, e, p, m, f)))
                    else (s11, .error "KeyError")
              else (s6, .error "KeyError")
          else (s5, .error "KeyError")
      else (s4, .error "KeyError")
  else (s, .error "KeyError")

/-- Frames below `n` are untouched and the heap stays at least `n`
cells long. -/
def FB (n : Nat) (s s' : Store) : Prop :=
  n ≤ s'.dfs.length ∧ ∀ i < n, s'.dfs.getD i emptyDF = s.dfs.getD i emptyDF

/-! ### Theorems -/

theorem colIdx_lt_length {cols : List String} {c : String} {i : Nat}
    (h : colIdx cols c = some i) : i < cols.length := by
  induction cols generalizing i with
  | nil => simp [colIdx] at h
  | cons c' cs ih =>
    simp only [colIdx] at h
    split at h
    · cases h
      simp
    · rcases Option.map_eq_some'.mp h with ⟨j, hj, hji⟩
      have := ih hj
      simp only [List.length_cons]
      omega

theorem colIdx_get {cols : List String} {c : String} {i : Nat}
    (h : colIdx cols c = some i) : cols.getD i "" = c := by
  induction cols generalizing i with
  | nil => simp [colIdx] at h
  | cons c' cs ih =>
    simp only [colIdx] at h
    split at h
    · next hcc =>
      cases h
      simpa using hcc
    · rcases Option.map_eq_some'.mp h with ⟨j, hj, hji⟩
      subst hji
      simpa using ih hj

theorem colIdx_isSome_of_mem {cols : List String} {c : String} :
    c ∈ cols → ∃ i, colIdx cols c = some i := by
  induction cols with
  | nil => intro h; simp at h
  | cons c' cs ih =>
    intro h
    by_cases hc : c' = c
    · exact ⟨0, by simp [colIdx, hc]⟩
    · have hmem : c ∈ cs := by
        rcases List.mem_cons.mp h with h1 | h1
        · exact absurd h1.symm hc
        · exact h1
      obtain ⟨i, hi⟩ := ih hmem
      exact ⟨i + 1, by simp [colIdx, hc, hi]⟩

theorem colIdx_none_of_not_mem {cols : List String} {c : String} :
    c ∉ cols → colIdx cols c = none := by
  induction cols with
  | nil => intro _; rfl
  | cons c' cs ih =>
    intro h
    simp only [List.mem_cons, not_or] at h
    simp [colIdx, Ne.symm h.1, ih h.2]

theorem colIdx_ne_of_ne {cols : List String} {c c' : String} {i j : Nat}
    (hi : colIdx cols c = some i) (hj : colIdx cols c' = some j)
    (hcc : c ≠ c') : i ≠ j := by
  intro hij
  subst hij
  have h1 := colIdx_get hi
  have h2 := colIdx_get hj
  exact hcc (h1 ▸ h2 ▸ rfl)

theorem colIdx_append_left {cols e : List String} {c : String} :
    c ∈ cols → colIdx (cols ++ e) c = colIdx cols c := by
  induction cols with
  | nil => intro h; simp at h
  | cons c' cs ih =>
    intro h
    by_cases hc : c' = c
    · simp [colIdx, hc]
    · have hmem : c ∈ cs := by
        rcases List.mem_cons.mp h with h1 | h1
        · exact absurd h1.symm hc
        · exact h1
      simp [colIdx, hc, ih hmem]

theorem colIdx_append_cons_self {cols e : List String} {c : String} :
    c ∉ cols → colIdx (cols ++ c :: e) c = some cols.length := by
  induction cols with
  | nil => intro _; simp [colIdx]
  | cons c' cs ih =>
    intro h
    simp only [List.mem_cons, not_or] at h
    simp [colIdx, Ne.symm h.1, ih h.2]

theorem getVal_append_of_mem {cols e : List String} {r ex : List Value} {c : String}
    (hmem : c ∈ cols) (hlen : r.length = cols.length) :
    getVal (cols ++ e) (r ++ ex) c = getVal cols r c := by
  unfold getVal
  rw [colIdx_append_left hmem]
  obtain ⟨i, hi⟩ := colIdx_isSome_of_mem hmem
  rw [hi]
  have hilt : i < r.length := hlen ▸ colIdx_lt_length hi
  exact List.getD_append _ _ _ _ hilt

/-- Round trip: projecting an extended row back onto the prefix of
distinct columns it was built from recovers the original tuple. -/
theorem keyTuple_prefix {cs e : List String} {b ex : List Value}
    (hnd : cs.Nodup) (hlen : b.length = cs.length) :
    keyTuple (cs ++ e) cs (b ++ ex) = b := by
  induction cs generalizing b with
  | nil =>
    simp at hlen
    simp [keyTuple, hlen]
  | cons c cs' ih =>
    rcases b with _ | ⟨v, b'⟩
    · simp at hlen
    · simp only [List.length_cons, Nat.succ.injEq] at hlen
      have hnd' : cs'.Nodup := hnd.of_cons
      have hcnot : c ∉ cs' := (List.nodup_cons.mp hnd).1
      have hhead : getVal ((c :: cs') ++ e) ((v :: b') ++ ex) c = v := by
        simp [getVal, colIdx]
      have htail : ∀ c' ∈ cs', getVal ((c :: cs') ++ e) ((v :: b') ++ ex) c'
          = getVal (cs' ++ e) (b' ++ ex) c' := by
        intro c' hc'
        have hne : c ≠ c' := fun hh => hcnot (hh ▸ hc')
        cases hi : colIdx (cs' ++ e) c' with
        | none => simp [getVal, List.cons_append, colIdx, hne, hi]
        | some i => simp [getVal, List.cons_append, colIdx, hne, hi]
      simp only [keyTuple, List.map_cons]
      rw [hhead, List.map_congr_left htail]
      exact congrArg (v :: ·) (ih hnd' hlen)

theorem keepFirstByFuel_congr {α κ : Type} [DecidableEq κ] (f : α → κ) :
    ∀ n m : Nat, ∀ l : List α, l.length ≤ n → l.length ≤ m →
      keepFirstByFuel f n l = keepFirstByFuel f m l := by
  intro n
  induction n with
  | zero =>
    intro m l hn _
    have : l = [] := List.length_eq_zero.mp (Nat.le_zero.mp hn)
    subst this
    cases m <;> rfl
  | succ n ih =>
    intro m l hn hm
    cases l with
    | nil => cases m <;> rfl
    | cons x xs =>
      cases m with
      | zero => simp at hm
      | succ m' =>
        simp only [keepFirstByFuel]
        have hfl : (xs.filter (fun y => f y ≠ f x)).length ≤ xs.length :=
          List.length_filter_le _ _
        have h1 : (xs.filter (fun y => f y ≠ f x)).length ≤ n := by
          simp only [List.length_cons] at hn
          omega
        have h2 : (xs.filter (fun y => f y ≠ f x)).length ≤ m' := by
          simp only [List.length_cons] at hm
          omega
        rw [ih _ _ h1 h2]

theorem keepFirstBy_nil {α κ : Type} [DecidableEq κ] (f : α → κ) :
    keepFirstBy f ([] : List α) = [] := rfl

/-- The defining unfolding of `keepFirstBy` on a cons cell. -/
theorem keepFirstBy_cons {α κ : Type} [DecidableEq κ] (f : α → κ) (x : α) (xs : List α) :
    keepFirstBy f (x :: xs)
      = x :: keepFirstBy f (xs.filter (fun y => f y ≠ f x)) := by
  unfold keepFirstBy
  simp only [List.length_cons, keepFirstByFuel]
  rw [keepFirstByFuel_congr f xs.length (xs.filter (fun y => f y ≠ f x)).length _
    (List.length_filter_le _ _) (Nat.le_refl _)]

theorem keepFirstBy_sublist {α κ : Type} [DecidableEq κ] (f : α → κ) :
    ∀ l : List α, (keepFirstBy f l).Sublist l
  | [] => by simp [keepFirstBy_nil]
  | x :: xs => by
    rw [keepFirstBy_cons]
    exact List.Sublist.cons₂ x
      ((keepFirstBy_sublist f _).trans (List.filter_sublist xs))
termination_by l => l.length
decreasing_by
  simp only [List.length_cons]
  exact Nat.lt_succ_of_le (List.length_filter_le _ _)

theorem keepFirstBy_pairwise {α κ : Type} [DecidableEq κ] (f : α → κ) :
    ∀ l : List α, (keepFirstBy f l).Pairwise (fun a b => f a ≠ f b)
  | [] => by simp [keepFirstBy_nil]
  | x :: xs => by
    rw [keepFirstBy_cons]
    refine List.pairwise_cons.mpr ⟨?_, keepFirstBy_pairwise f _⟩
    intro y hy
    have hy' : y ∈ xs.filter (fun y => f y ≠ f x) :=
      (keepFirstBy_sublist f _).subset hy
    have hne : f y ≠ f x := by simpa using List.of_mem_filter hy'
    exact fun hxy => hne hxy.symm
termination_by l => l.length
decreasing_by
  simp only [List.length_cons]
  exact Nat.lt_succ_of_le (List.length_filter_le _ _)

theorem keepFirstBy_key_complete {α κ : Type} [DecidableEq κ] (f : α → κ) :
    ∀ l : List α, ∀ x ∈ l, ∃ y ∈ keepFirstBy f l, f y = f x
  | [] => by simp
  | x :: xs => by
    intro z hz
    rw [keepFirstBy_cons]
    by_cases hk : f z = f x
    · exact ⟨x, List.mem_cons_self _ _, hk.symm⟩
    · have hzxs : z ∈ xs := by
        rcases List.mem_cons.mp hz with h1 | h1
        · exact absurd (congrArg f h1) hk
        · exact h1
      have hzf : z ∈ xs.filter (fun y => f y ≠ f x) :=
        List.mem_filter.mpr ⟨hzxs, by simpa using hk⟩
      obtain ⟨y, hy, hfy⟩ := keepFirstBy_key_complete f _ z hzf
      exact ⟨y, List.mem_cons_of_mem _ hy, hfy⟩
termination_by l => l.length
decreasing_by
  simp only [List.length_cons]
  exact Nat.lt_succ_of_le (List.length_filter_le _ _)

theorem filter_eq_append_cons_decomp {α : Type} {p : α → Bool} :
    ∀ {xs u1 u2 : List α} {y : α}, xs.filter p = u1 ++ y :: u2 →
      ∃ v1 v2, xs = v1 ++ y :: v2 ∧ v1.filter p = u1 := by
  intro xs
  induction xs with
  | nil =>
    intro u1 u2 y h
    simp at h
  | cons a xs' ih =>
    intro u1 u2 y h
    by_cases hp : p a
    · rw [List.filter_cons_of_pos hp] at h
      cases u1 with
      | nil =>
        simp only [List.nil_append] at h
        obtain ⟨rfl, _⟩ := List.cons.injEq a _ y _ ▸ h
        exact ⟨[], xs', by simp, by simp⟩
      | cons u u1' =>
        simp only [List.cons_append] at h
        have h1 : a = u := (List.cons.injEq _ _ _ _ ▸ h).1
        have h2 : xs'.filter p = u1' ++ y :: u2 := (List.cons.injEq _ _ _ _ ▸ h).2
        obtain ⟨v1, v2, hv, hf⟩ := ih h2
        exact ⟨a :: v1, v2, by simp [hv],
          by rw [List.filter_cons_of_pos hp, hf, h1]⟩
    · rw [List.filter_cons_of_neg (by simpa using hp)] at h
      obtain ⟨v1, v2, hv, hf⟩ := ih h
      exact ⟨a :: v1, v2, by simp [hv],
        by rw [List.filter_cons_of_neg (by simpa using hp), hf]⟩

/-- First-occurrence property: every survivor of `keepFirstBy` is
preceded in the original list only by elements with a different key. -/
theorem keepFirstBy_first_occurrence {α κ : Type} [DecidableEq κ] (f : α → κ) :
    ∀ l : List α, ∀ y ∈ keepFirstBy f l,
      ∃ t1 t2, l = t1 ++ y :: t2 ∧ ∀ z ∈ t1, f z ≠ f y
  | [] => by simp [keepFirstBy_nil]
  | x :: xs => by
    intro y hy
    rw [keepFirstBy_cons] at hy
    rcases List.mem_cons.mp hy with rfl | hy'
    · exact ⟨[], xs, rfl, by simp⟩
    · have hyne : f y ≠ f x := by
        have hmem : y ∈ xs.filter (fun z => f z ≠ f x) :=
          (keepFirstBy_sublist f _).subset hy'
        simpa using List.of_mem_filter hmem
      obtain ⟨u1, u2, hu, hne⟩ :=
        keepFirstBy_first_occurrence f (xs.filter (fun z => f z ≠ f x)) y hy'
      obtain ⟨v1, v2, hv, hfil⟩ := filter_eq_append_cons_decomp hu
      refine ⟨x :: v1, v2, by simp [hv], ?_⟩
      intro z hz
      rcases List.mem_cons.mp hz with rfl | hz'
      · exact fun hh => hyne hh.symm
      · by_cases hzx : f z = f x
        · exact fun hh => hyne (hh ▸ hzx)
        · have : z ∈ v1.filter (fun w => f w ≠ f x) :=
            List.mem_filter.mpr ⟨hz', by simpa using hzx⟩
          exact hne z (hfil ▸ this)
termination_by l => l.length
decreasing_by
  simp only [List.length_cons]
  exact Nat.lt_succ_of_le (List.length_filter_le _ _)

/-- Deduplication commutes with a per-row transformation that does not
touch the key. -/
theorem keepFirstBy_map_comm {α κ : Type} [DecidableEq κ] (f : α → κ)
    (g : α → α) (hg : ∀ a, f (g a) = f a) :
    ∀ l : List α, keepFirstBy f (l.map g) = (keepFirstBy f l).map g
  | [] => by simp [keepFirstBy_nil]
  | x :: xs => by
    rw [List.map_cons, keepFirstBy_cons, keepFirstBy_cons]
    rw [List.map_cons]
    have hfil : (xs.map g).filter (fun y => f y ≠ f (g x))
        = (xs.filter (fun y => f y ≠ f x)).map g := by
      rw [List.filter_map]
      refine congrArg _ (List.filter_congr ?_)
      intro a _
      simp [Function.comp, hg]
    rw [hfil, keepFirstBy_map_comm f g hg (xs.filter (fun y => f y ≠ f x))]
termination_by l => l.length
decreasing_by
  simp only [List.length_cons]
  exact Nat.lt_succ_of_le (List.length_filter_le _ _)

theorem keepFirstBy_nodup {α : Type} [DecidableEq α] (l : List α) :
    (keepFirstBy id l).Nodup :=
  keepFirstBy_pairwise id l

theorem keepFirstBy_mem_iff {α : Type} [DecidableEq α] {l : List α} {a : α} :
    a ∈ keepFirstBy id l ↔ a ∈ l := by
  constructor
  · exact fun h => (keepFirstBy_sublist id l).subset h
  · intro h
    obtain ⟨y, hy, hfy⟩ := keepFirstBy_key_complete id l a h
    exact (show y = a from hfy) ▸ hy

/-- The number of distinct elements survives `keepFirstBy id`. -/
theorem keepFirstBy_length_toFinset {α : Type} [DecidableEq α] (l : List α) :
    (keepFirstBy id l).length = l.toFinset.card := by
  have hnd := keepFirstBy_nodup l
  have hfs : (keepFirstBy id l).toFinset = l.toFinset := by
    ext a
    simp [List.mem_toFinset, keepFirstBy_mem_iff]
  rw [← List.toFinset_card_of_nodup hnd, hfs]

theorem reconStage_elim {staging : List DF} {c1 : DF}
    (h : reconStage staging = some c1) :
    ∃ d ds, staging.filter (fun d => !d.isEmptyDF) = d :: ds ∧
      (concatDFs (d :: ds)).isEmptyDF = false ∧
      c1 = reconcileSerie (normalizeCols (concatDFs (d :: ds))) := by
  unfold reconStage at h
  cases hfil : staging.filter (fun d => !d.isEmptyDF) with
  | nil => rw [hfil] at h; simp at h
  | cons d ds =>
    rw [hfil] at h
    cases hemp : (concatDFs (d :: ds)).isEmptyDF with
    | true => simp [hemp] at h
    | false =>
      simp only [hemp, Bool.false_eq_true, if_false, Option.some.injEq] at h
      exact ⟨d, ds, rfl, hemp, h.symm⟩

theorem keyedStage_elim {staging : List DF} {c1 : DF}
    (h : keyedStage staging = some c1) :
    reconStage staging = some c1 ∧
      (requiredCols.filter (fun c => !(c1.cols.contains c))).isEmpty = true := by
  unfold keyedStage at h
  cases hr : reconStage staging with
  | none => rw [hr] at h; simp at h
  | some c1' =>
    rw [hr] at h
    simp only [Option.some_bind] at h
    cases hm : (requiredCols.filter (fun c => !(c1'.cols.contains c))).isEmpty with
    | false =>
      simp only [hm, Bool.false_eq_true, if_false] at h
      exact Option.noConfusion h
    | true =>
      simp only [hm, if_true, Option.some.injEq] at h
      subst h
      exact ⟨rfl, hm⟩

theorem parsedStage_elim {staging : List DF} {c2 : DF}
    (h : parsedStage staging = some c2) :
    ∃ c1, keyedStage staging = some c1 ∧ parseDateCol c1 = some c2 := by
  unfold parsedStage at h
  cases hk : keyedStage staging with
  | none => rw [hk] at h; simp at h
  | some c1 =>
    rw [hk] at h
    simp only [Option.some_bind] at h
    exact ⟨c1, rfl, h⟩

theorem dedupStage_elim {staging : List DF} {pre : DF}
    (h : dedupStage staging = some pre) :
    ∃ c2, parsedStage staging = some c2 ∧ pre = dedupKeys (coerceNumerics c2) := by
  unfold dedupStage at h
  cases hp : parsedStage staging with
  | none => rw [hp] at h; simp at h
  | some c2 =>
    rw [hp] at h
    simp only [Option.map_some', Option.some.injEq] at h
    exact ⟨c2, rfl, h.symm⟩

/-- When the pipeline reaches deduplication, the returned frame is the
null-filled deduplicated frame and nothing is logged. -/
theorem transform_of_dedupStage {staging : List DF} {pre : DF}
    (h : dedupStage staging = some pre) :
    transform_to_core staging = ([], .ok (fillNulls pre)) := by
  obtain ⟨c2, hp, rfl⟩ := dedupStage_elim h
  obtain ⟨c1, hk, hparse⟩ := parsedStage_elim hp
  obtain ⟨hr, hm⟩ := keyedStage_elim hk
  obtain ⟨d, ds, hfil, hemp, hc1⟩ := reconStage_elim hr
  unfold transform_to_core
  rw [hfil]
  simp only [hemp, Bool.false_eq_true, if_false, ← hc1, hm, if_true]
  rw [hparse]

/-- Either the run returned early with the empty frame (and never
reached deduplication), or the output is the null-filled deduplicated
frame. -/
theorem transform_ok_cases {staging : List DF} {log : List LogEvent} {out : DF}
    (h : transform_to_core staging = (log, .ok out)) :
    (out = emptyDF ∧ dedupStage staging = none) ∨
      (∃ pre, dedupStage staging = some pre ∧ out = fillNulls pre ∧ log = []) := by
  unfold transform_to_core at h
  cases hfil : staging.filter (fun d => !d.isEmptyDF) with
  | nil =>
    rw [hfil] at h
    simp at h
  | cons d ds =>
    rw [hfil] at h
    cases hemp : (concatDFs (d :: ds)).isEmptyDF with
    | true =>
      simp only [hemp, if_true, Prod.mk.injEq] at h
      refine Or.inl ⟨by simpa using h.2.symm, ?_⟩
      unfold dedupStage parsedStage keyedStage reconStage
      rw [hfil]
      simp [hemp]
    | false =>
      simp only [hemp, Bool.false_eq_true, if_false] at h
      cases hm : (requiredCols.filter (fun c =>
          !((reconcileSerie (normalizeCols (concatDFs (d :: ds)))).cols.contains c))).isEmpty with
      | false =>
        simp only [hm, Bool.false_eq_true, if_false, Prod.mk.injEq] at h
        refine Or.inl ⟨by simpa using h.2.symm, ?_⟩
        unfold dedupStage parsedStage keyedStage reconStage
        rw [hfil]
        simp only [hemp, Bool.false_eq_true, if_false, Option.some_bind, hm,
          Option.none_bind, Option.map_none']
      | true =>
        simp only [hm, if_true] at h
        cases hparse : parseDateCol (reconcileSerie (normalizeCols (concatDFs (d :: ds)))) with
        | none => rw [hparse] at h; simp at h
        | some c2 =>
          rw [hparse] at h
          simp only [Prod.mk.injEq] at h
          refine Or.inr ⟨dedupKeys (coerceNumerics c2), ?_, by simpa using h.2.symm, h.1.symm⟩
          unfold dedupStage parsedStage keyedStage reconStage
          rw [hfil]
          simp only [hemp, Bool.false_eq_true, if_false, Option.some_bind, hm,
            if_true, hparse, Option.map_some']

theorem getD_set_ne {r : List Value} {i j : Nat} {v d : Value} (h : i ≠ j) :
    (r.set i v).getD j d = r.getD j d := by
  simp only [List.getD_eq_getElem?_getD]
  rw [List.getElem?_set_ne h]

theorem getD_set_self {r : List Value} {i : Nat} {v d : Value} (h : i < r.length) :
    (r.set i v).getD i d = v := by
  simp only [List.getD_eq_getElem?_getD]
  rw [List.getElem?_set_self h]
  rfl

theorem getVal_setIdx_ne {cols : List String} {c c' : String} {f : Value → Value}
    {r : List Value} (hne : c' ≠ c) :
    getVal cols (setIdx (colIdx cols c) f r) c' = getVal cols r c' := by
  unfold setIdx
  cases hj : colIdx cols c with
  | none => rfl
  | some j =>
    unfold getVal
    cases hi : colIdx cols c' with
    | none => rfl
    | some i =>
      exact getD_set_ne (colIdx_ne_of_ne hj hi (Ne.symm hne))

theorem getVal_setIdx_self {cols : List String} {c : String} {f : Value → Value}
    {r : List Value} {i : Nat} (hi : colIdx cols c = some i) (hlt : i < r.length) :
    getVal cols (setIdx (colIdx cols c) f r) c = f (getVal cols r c) := by
  unfold setIdx getVal
  rw [hi]
  exact getD_set_self hlt

theorem setColIfPresent_cols (df : DF) (c : String) (f : Value → Value) :
    (setColIfPresent df c f).cols = df.cols := rfl

theorem setColIfPresent_wf {df : DF} (c : String) (f : Value → Value)
    (h : df.Wf) : (setColIfPresent df c f).Wf := by
  intro r hr
  simp only [setColIfPresent, List.mem_map] at hr
  obtain ⟨r0, hr0, rfl⟩ := hr
  unfold setIdx
  cases colIdx df.cols c with
  | none => exact h r0 hr0
  | some i => simpa using h r0 hr0

theorem colValues_setColIfPresent_ne {df : DF} {c c' : String} {f : Value → Value}
    (hne : c' ≠ c) :
    colValues (setColIfPresent df c f) c' = colValues df c' := by
  unfold colValues setColIfPresent
  simp only [List.map_map]
  exact List.map_congr_left (fun r _ => getVal_setIdx_ne hne)

theorem colValues_setColIfPresent_self {df : DF} {c : String} {f : Value → Value}
    (hmem : c ∈ df.cols) (hwf : df.Wf) :
    colValues (setColIfPresent df c f) c = (colValues df c).map f := by
  unfold colValues setColIfPresent
  simp only [List.map_map]
  refine List.map_congr_left ?_
  intro r hr
  obtain ⟨i, hi⟩ := colIdx_isSome_of_mem hmem
  exact getVal_setIdx_self hi ((hwf r hr) ▸ colIdx_lt_length hi)

theorem foldlSet_cols (L : List String) (g : Value → Value) (df : DF) :
    (L.foldl (fun d c => setColIfPresent d c g) df).cols = df.cols := by
  induction L generalizing df with
  | nil => rfl
  | cons c L' ih => simpa using ih (setColIfPresent df c g)

theorem foldlSet_wf (L : List String) (g : Value → Value) {df : DF}
    (h : df.Wf) : (L.foldl (fun d c => setColIfPresent d c g) df).Wf := by
  induction L generalizing df with
  | nil => exact h
  | cons c L' ih => exact ih (setColIfPresent_wf c g h)

theorem colValues_foldlSet_ne {L : List String} {g : Value → Value} {df : DF}
    {c : String} (h : c ∉ L) :
    colValues (L.foldl (fun d c => setColIfPresent d c g) df) c = colValues df c := by
  induction L generalizing df with
  | nil => rfl
  | cons c0 L' ih =>
    simp only [List.mem_cons, not_or] at h
    simpa using (ih h.2).trans (colValues_setColIfPresent_ne h.1)

theorem colValues_foldlSet_mem {L : List String} {g : Value → Value} {df : DF}
    {c : String} (hnd : L.Nodup) (hc : c ∈ L) (hmem : c ∈ df.cols) (hwf : df.Wf) :
    colValues (L.foldl (fun d c => setColIfPresent d c g) df) c
      = (colValues df c).map g := by
  induction L generalizing df with
  | nil => simp at hc
  | cons c0 L' ih =>
    by_cases hcc : c = c0
    · subst hcc
      have hnotin : c ∉ L' := (List.nodup_cons.mp hnd).1
      simpa using (colValues_foldlSet_ne hnotin).trans
        (colValues_setColIfPresent_self hmem hwf)
    · have hc' : c ∈ L' := by
        rcases List.mem_cons.mp hc with h1 | h1
        · exact absurd h1 hcc
        · exact h1
      have h1 := ih (List.nodup_cons.mp hnd).2 hc'
        (by simpa [setColIfPresent_cols] using hmem)
        (setColIfPresent_wf c0 g hwf)
      rw [colValues_setColIfPresent_ne hcc] at h1
      simpa using h1

theorem concatDFs_wf (dfs : List DF) : (concatDFs dfs).Wf := by
  intro r hr
  simp only [concatDFs, List.mem_flatMap, List.mem_map] at hr
  obtain ⟨d, _, r0, _, rfl⟩ := hr
  simp [concatDFs]

theorem normalizeCols_wf {df : DF} (h : df.Wf) : (normalizeCols df).Wf := by
  intro r hr
  simpa [normalizeCols] using h r hr

theorem renameCol_wf {df : DF} {old new : String} (h : df.Wf) :
    (renameCol df old new).Wf := by
  intro r hr
  simpa [renameCol] using h r hr

theorem reconcileSerie_wf {df : DF} (h : df.Wf) : (reconcileSerie df).Wf := by
  unfold reconcileSerie
  split
  · exact renameCol_wf h
  · split
    · exact renameCol_wf h
    · exact h

theorem dedupKeys_cols (df : DF) : (dedupKeys df).cols = df.cols := rfl

theorem dedupKeys_wf {df : DF} (h : df.Wf) : (dedupKeys df).Wf := by
  intro r hr
  exact h r ((keepFirstBy_sublist _ df.rows).subset hr)

theorem coerceNumerics_cols (df : DF) : (coerceNumerics df).cols = df.cols :=
  foldlSet_cols _ _ _

theorem coerceNumerics_wf {df : DF} (h : df.Wf) : (coerceNumerics df).Wf :=
  foldlSet_wf _ _ h

theorem fillNulls_cols (df : DF) : (fillNulls df).cols = df.cols := by
  unfold fillNulls
  rw [setColIfPresent_cols, foldlSet_cols]

theorem fillNulls_wf {df : DF} (h : df.Wf) : (fillNulls df).Wf :=
  setColIfPresent_wf _ _ (foldlSet_wf _ _ h)

theorem parseDateCol_elim {df c2 : DF} (h : parseDateCol df = some c2) :
    c2 = setColIfPresent df fechaCol parseFechaValue ∧ fechaCol ∈ df.cols := by
  unfold parseDateCol at h
  cases hi : colIdx df.cols fechaCol with
  | none => rw [hi] at h; exact Option.noConfusion h
  | some i =>
    rw [hi] at h
    refine ⟨(Option.some.injEq _ _ ▸ h).symm, ?_⟩
    have hlt := colIdx_lt_length hi
    have h1 : df.cols.getD i "" ∈ df.cols := by
      rw [List.getD_eq_getElem _ _ hlt]
      exact List.getElem_mem hlt
    exact colIdx_get hi ▸ h1

/-- C1: the spec says that when every period's staging dataset is
empty, `transform_to_core` logs an error and returns an empty dataset.
The code instead calls `pd.concat` on an empty list, which raises
`ValueError: No objects to concatenate` before the empty-check on
lines 69-71 can run: nothing is logged and nothing is returned.  The
`if all_data.empty` branch of the source is unreachable.  This theorem
evaluates the model at the failing input (all three period frames
empty, as when all three input files are missing). -/
theorem transform_all_empty_raises :
    transform_to_core [emptyDF, emptyDF, emptyDF]
      = ([], .error "No objects to concatenate") := rfl

/-- C7: when, after column reconciliation, a required key column
(`NUMERO_FORMULARIO` or `NUMERO_SERIE`) is absent from the concatenated
frame, `transform_to_core` logs exactly which columns are missing and
returns the empty dataset: a hard stop in which none of the later
cleaning steps (date parsing, coercion, deduplication, filling) is
performed. -/
theorem transform_missing_keys_stop {staging : List DF} {c1 : DF}
    (hr : reconStage staging = some c1)
    (hm : (requiredCols.filter (fun c => !(c1.cols.contains c))).isEmpty = false) :
    transform_to_core staging
      = ([.missingColumns (requiredCols.filter (fun c => !(c1.cols.contains c)))],
         .ok emptyDF) := by
  obtain ⟨d, ds, hfil, hemp, hc1⟩ := reconStage_elim hr
  unfold transform_to_core
  rw [hfil]
  simp only [hemp, Bool.false_eq_true, if_false, ← hc1, hm]

theorem transform_missing_keys_stop_witness :
    (reconStage stagingMissingSerie = some reconMissingSerie ∧
      (requiredCols.filter (fun c => !(reconMissingSerie.cols.contains c))).isEmpty
        = false) ∧
    transform_to_core stagingMissingSerie
      = ([.missingColumns
            (requiredCols.filter (fun c => !(reconMissingSerie.cols.contains c)))],
         .ok emptyDF) :=
  ⟨⟨by decide, by decide⟩, transform_missing_keys_stop (by decide) (by decide)⟩

theorem reconStage_wf {staging : List DF} {c1 : DF}
    (h : reconStage staging = some c1) : c1.Wf := by
  obtain ⟨d, ds, _, _, rfl⟩ := reconStage_elim h
  exact reconcileSerie_wf (normalizeCols_wf (concatDFs_wf _))

/-- A column-update loop is a per-row map. -/
theorem foldlSet_rows (L : List String) (g : Value → Value) (df : DF) :
    (L.foldl (fun d c => setColIfPresent d c g) df).rows
      = df.rows.map (fun r => L.foldl (fun r' c => setIdx (colIdx df.cols c) g r') r) := by
  induction L generalizing df with
  | nil => simp
  | cons c L' ih =>
    rw [List.foldl_cons, ih (setColIfPresent df c g)]
    simp only [setColIfPresent, List.map_map]
    rfl

theorem keyTuple_setIdx_ne {cols ks : List String} {c : String}
    {g : Value → Value} {r : List Value} (hne : c ∉ ks) :
    keyTuple cols ks (setIdx (colIdx cols c) g r) = keyTuple cols ks r := by
  unfold keyTuple
  refine List.map_congr_left ?_
  intro k hk
  exact getVal_setIdx_ne (fun hkc => hne (hkc ▸ hk))

theorem keyTuple_rowFold_ne {L cols ks : List String} {g : Value → Value}
    (hdisj : ∀ c ∈ L, c ∉ ks) (r : List Value) :
    keyTuple cols ks (L.foldl (fun r' c => setIdx (colIdx cols c) g r') r)
      = keyTuple cols ks r := by
  induction L generalizing r with
  | nil => rfl
  | cons c L' ih =>
    rw [List.foldl_cons]
    rw [ih (fun c' hc' => hdisj c' (List.mem_cons_of_mem _ hc'))]
    exact keyTuple_setIdx_ne (hdisj c (List.mem_cons_self _ _))

/-- Per-row cleaning never touches the deduplication key columns. -/
theorem keyTuple_rowClean (cols : List String) (r : List Value) :
    keyTuple cols requiredCols (rowClean cols r) = keyTuple cols requiredCols r := by
  unfold rowClean rowFill rowCoerce rowParse
  rw [keyTuple_setIdx_ne (by decide),
    keyTuple_rowFold_ne (by decide),
    keyTuple_rowFold_ne (by decide),
    keyTuple_setIdx_ne (by decide)]

/-- The null-filling block is a per-row map. -/
theorem fillNulls_eq_map (df : DF) :
    fillNulls df = ⟨df.cols, df.rows.map (rowFill df.cols)⟩ := by
  unfold fillNulls
  refine DF.ext ?_ ?_
  · rw [setColIfPresent_cols, foldlSet_cols]
  · show (numericCols.foldl (fun d c => setColIfPresent d c fillZero) df).rows.map
        (setIdx (colIdx (numericCols.foldl (fun d c => setColIfPresent d c fillZero) df).cols
          "PAIS_DESTINO_FINAL") fillUnknown) = df.rows.map (rowFill df.cols)
    rw [foldlSet_rows, foldlSet_cols, List.map_map]
    rfl

/-- On the main path, the returned frame keeps the reconciled columns
and its rows are exactly the first-occurrence representatives of the
concatenated rows, each passed through the per-row cleaning. -/
theorem mainPath_struct {staging : List DF} {cat : DF}
    (hr : reconStage staging = some cat)
    (hm : (requiredCols.filter (fun c => !(cat.cols.contains c))).isEmpty = true)
    (hf : fechaCol ∈ cat.cols) :
    dedupStage staging = some (dedupKeys (coerceNumerics (setColIfPresent cat fechaCol parseFechaValue))) ∧
    fillNulls (dedupKeys (coerceNumerics (setColIfPresent cat fechaCol parseFechaValue)))
      = ⟨cat.cols,
         (keepFirstBy (keyTuple cat.cols requiredCols) cat.rows).map (rowClean cat.cols)⟩ := by
  have hk : keyedStage staging = some cat := by
    unfold keyedStage
    rw [hr]
    simp only [Option.some_bind, hm, if_true]
  obtain ⟨i, hi⟩ := colIdx_isSome_of_mem hf
  have hparse : parseDateCol cat = some (setColIfPresent cat fechaCol parseFechaValue) := by
    unfold parseDateCol
    rw [hi]
  constructor
  · unfold dedupStage parsedStage
    rw [hk, Option.some_bind, hparse, Option.map_some']
  · have e_parse : setColIfPresent cat fechaCol parseFechaValue
        = ⟨cat.cols, cat.rows.map (rowParse cat.cols)⟩ := rfl
    have e_coerce : coerceNumerics (setColIfPresent cat fechaCol parseFechaValue)
        = ⟨cat.cols, cat.rows.map (fun r => rowCoerce cat.cols (rowParse cat.cols r))⟩ := by
      unfold coerceNumerics
      rw [e_parse]
      refine DF.ext (foldlSet_cols _ _ _) ?_
      rw [foldlSet_rows]
      simp only [List.map_map]
      rfl
    have hkeyCP : ∀ r, keyTuple cat.cols requiredCols (rowCoerce cat.cols (rowParse cat.cols r))
        = keyTuple cat.cols requiredCols r := by
      intro r
      unfold rowCoerce rowParse
      rw [keyTuple_rowFold_ne (by decide), keyTuple_setIdx_ne (by decide)]
    have e_dedup : dedupKeys (coerceNumerics (setColIfPresent cat fechaCol parseFechaValue))
        = ⟨cat.cols,
           (keepFirstBy (keyTuple cat.cols requiredCols) cat.rows).map
             (fun r => rowCoerce cat.cols (rowParse cat.cols r))⟩ := by
      rw [e_coerce]
      unfold dedupKeys
      refine DF.ext rfl ?_
      simp only
      exact keepFirstBy_map_comm _ _ hkeyCP cat.rows
    rw [e_dedup, fillNulls_eq_map]
    refine DF.ext rfl ?_
    simp only [List.map_map]
    rfl

theorem keyTuple_rowFill (cols : List String) (r : List Value) :
    keyTuple cols requiredCols (rowFill cols r) = keyTuple cols requiredCols r := by
  unfold rowFill
  rw [keyTuple_setIdx_ne (by decide), keyTuple_rowFold_ne (by decide)]

/-- C2: the frame returned by `transform_to_core` never contains two
rows with the same (NUMERO_FORMULARIO, NUMERO_SERIE) pair, and on the
path that reaches deduplication its rows are exactly the
first-occurrence representatives, in concatenation order (earliest
period first, original row order within a period), of the concatenated
reconciled rows — each row passed through the key-preserving per-row
cleaning. -/
theorem transform_dedup_first_wins {staging : List DF} {log : List LogEvent} {out : DF}
    (h : transform_to_core staging = (log, .ok out)) :
    out.rows.Pairwise (fun a b =>
      keyTuple out.cols requiredCols a ≠ keyTuple out.cols requiredCols b) ∧
    (∀ cat, reconStage staging = some cat →
      (requiredCols.filter (fun c => !(cat.cols.contains c))).isEmpty = true →
      fechaCol ∈ cat.cols →
      out.cols = cat.cols ∧
      out.rows
        = (keepFirstBy (keyTuple cat.cols requiredCols) cat.rows).map (rowClean cat.cols) ∧
      (∀ r, keyTuple cat.cols requiredCols (rowClean cat.cols r)
        = keyTuple cat.cols requiredCols r) ∧
      (∀ y ∈ keepFirstBy (keyTuple cat.cols requiredCols) cat.rows,
        ∃ t1 t2, cat.rows = t1 ++ y :: t2 ∧
          ∀ z ∈ t1, keyTuple cat.cols requiredCols z ≠ keyTuple cat.cols requiredCols y) ∧
      (∀ x ∈ cat.rows, ∃ y ∈ keepFirstBy (keyTuple cat.cols requiredCols) cat.rows,
        keyTuple cat.cols requiredCols y = keyTuple cat.cols requiredCols x)) := by
  constructor
  · rcases transform_ok_cases h with ⟨rfl, _⟩ | ⟨pre, hpre, rfl, _⟩
    · exact List.Pairwise.nil
    · obtain ⟨c2, hp, rfl⟩ := dedupStage_elim hpre
      rw [fillNulls_eq_map]
      refine List.pairwise_map.mpr ?_
      have hbase := keepFirstBy_pairwise
        (keyTuple (coerceNumerics c2).cols requiredCols) (coerceNumerics c2).rows
      refine hbase.imp ?_
      intro a b hab
      rw [keyTuple_rowFill, keyTuple_rowFill]
      exact hab
  · intro cat hr hm hf
    obtain ⟨hded, hfill⟩ := mainPath_struct hr hm hf
    have ht := transform_of_dedupStage hded
    rw [h] at ht
    have hout : out = fillNulls (dedupKeys (coerceNumerics
        (setColIfPresent cat fechaCol parseFechaValue))) :=
      Except.ok.inj (congrArg Prod.snd ht)
    rw [hout, hfill]
    exact ⟨rfl, rfl, keyTuple_rowClean cat.cols,
      keepFirstBy_first_occurrence _ _, keepFirstBy_key_complete _ _⟩

theorem transform_dedup_first_wins_witness :
    outDup.rows.Pairwise (fun a b =>
      keyTuple outDup.cols requiredCols a ≠ keyTuple outDup.cols requiredCols b) ∧
    outDup.cols = catDup.cols ∧
    outDup.rows
      = (keepFirstBy (keyTuple catDup.cols requiredCols) catDup.rows).map
          (rowClean catDup.cols) := by
  have H := @transform_dedup_first_wins stagingDup [] outDup (by decide)
  have H3 := H.2 catDup (by decide) (by decide) (by decide)
  exact ⟨H.1, H3.1, H3.2.1⟩

theorem countP_key_unique {α κ : Type} [DecidableEq κ] {f : α → κ} {l : List α} {t : κ}
    (hp : l.Pairwise (fun a b => f a ≠ f b)) (hx : ∃ x ∈ l, f x = t) :
    l.countP (fun y => decide (f y = t)) = 1 := by
  induction l with
  | nil => simp at hx
  | cons a l' ih =>
    rcases List.pairwise_cons.mp hp with ⟨ha, hp'⟩
    by_cases hat : f a = t
    · rw [List.countP_cons_of_pos _ _ (by simpa using hat)]
      have hz : l'.countP (fun y => decide (f y = t)) = 0 := by
        rw [List.countP_eq_zero]
        intro b hb
        simp only [decide_eq_true_eq]
        exact fun hbt => (ha b hb) (by rw [hat, hbt])
      rw [hz]
    · rw [List.countP_cons_of_neg _ _ (by simpa using hat)]
      apply ih hp'
      rcases hx with ⟨x, hxl, hxt⟩
      rcases List.mem_cons.mp hxl with rfl | hx'
      · exact absurd hxt hat
      · exact ⟨x, hx', hxt⟩

/-- C9: deduplication treats null key values as equal to each other:
whenever the concatenated reconciled frame contains a row whose
(NUMERO_FORMULARIO, NUMERO_SERIE) pair is (null, null), exactly one
row with that pair survives `transform_to_core`, and it is the
cleaning of the earliest such row in concatenation order. -/
theorem dedup_null_keys_first {staging : List DF} {log : List LogEvent} {out cat : DF}
    (h : transform_to_core staging = (log, .ok out))
    (hr : reconStage staging = some cat)
    (hm : (requiredCols.filter (fun c => !(cat.cols.contains c))).isEmpty = true)
    (hf : fechaCol ∈ cat.cols)
    (r0 : List Value) (hr0 : r0 ∈ cat.rows)
    (hkey : keyTuple cat.cols requiredCols r0 = [Value.null, Value.null]) :
    out.rows.countP
        (fun r => decide (keyTuple cat.cols requiredCols r = [Value.null, Value.null])) = 1 ∧
    ∃ y t1 t2, cat.rows = t1 ++ y :: t2 ∧
      keyTuple cat.cols requiredCols y = [Value.null, Value.null] ∧
      (∀ z ∈ t1, keyTuple cat.cols requiredCols z ≠ [Value.null, Value.null]) ∧
      rowClean cat.cols y ∈ out.rows := by
  obtain ⟨hded, hfill⟩ := mainPath_struct hr hm hf
  have ht := transform_of_dedupStage hded
  rw [h] at ht
  have hout : out = fillNulls (dedupKeys (coerceNumerics
      (setColIfPresent cat fechaCol parseFechaValue))) :=
    Except.ok.inj (congrArg Prod.snd ht)
  rw [hout, hfill]
  obtain ⟨y, hy, hky⟩ :=
    keepFirstBy_key_complete (keyTuple cat.cols requiredCols) cat.rows r0 hr0
  have hkynull : keyTuple cat.cols requiredCols y = [Value.null, Value.null] :=
    hky.trans hkey
  constructor
  · show ((keepFirstBy (keyTuple cat.cols requiredCols) cat.rows).map
        (rowClean cat.cols)).countP _ = 1
    rw [List.countP_map]
    have hcong : ∀ l : List (List Value),
        l.countP ((fun r => decide (keyTuple cat.cols requiredCols r
            = [Value.null, Value.null])) ∘ rowClean cat.cols)
          = l.countP (fun r => decide (keyTuple cat.cols requiredCols r
            = [Value.null, Value.null])) := by
      intro l
      refine List.countP_congr ?_
      intro r _
      simp [Function.comp, keyTuple_rowClean]
    rw [hcong]
    exact countP_key_unique (keepFirstBy_pairwise _ _) ⟨y, hy, hkynull⟩
  · obtain ⟨t1, t2, hdecomp, hne⟩ :=
      keepFirstBy_first_occurrence (keyTuple cat.cols requiredCols) cat.rows y hy
    refine ⟨y, t1, t2, hdecomp, hkynull, ?_, ?_⟩
    · intro z hz
      rw [← hkynull]
      exact hne z hz
    · exact List.mem_map_of_mem _ hy

theorem dedup_null_keys_first_witness :
    outNulls.rows.countP
        (fun r => decide (keyTuple catNulls.cols requiredCols r
          = [Value.null, Value.null])) = 1 ∧
    ∃ y t1 t2, catNulls.rows = t1 ++ y :: t2 ∧
      keyTuple catNulls.cols requiredCols y = [Value.null, Value.null] ∧
      (∀ z ∈ t1, keyTuple catNulls.cols requiredCols z ≠ [Value.null, Value.null]) ∧
      rowClean catNulls.cols y ∈ outNulls.rows :=
  @dedup_null_keys_first stagingNulls [] outNulls catNulls (by decide) (by decide)
    (by decide) (by decide)
    [Value.null, Value.null, Value.str "20250101"] (by decide) (by decide)

theorem forall2_mem_left {α β : Type} {R : α → β → Prop} {l1 : List α} {l2 : List β}
    (hf : List.Forall₂ R l1 l2) : ∀ a ∈ l1, ∃ b ∈ l2, R a b := by
  induction hf with
  | nil => intro a ha; simp at ha
  | cons hR _ ih =>
    intro a ha
    rcases List.mem_cons.mp ha with rfl | ha'
    · exact ⟨_, List.mem_cons_self _ _, hR⟩
    · obtain ⟨b, hb, hRb⟩ := ih a ha'
      exact ⟨b, List.mem_cons_of_mem _ hb, hRb⟩

theorem forall2_mem_right {α β : Type} {R : α → β → Prop} {l1 : List α} {l2 : List β}
    (hf : List.Forall₂ R l1 l2) : ∀ b ∈ l2, ∃ a ∈ l1, R a b := by
  induction hf with
  | nil => intro b hb; simp at hb
  | cons hR _ ih =>
    intro b hb
    rcases List.mem_cons.mp hb with rfl | hb'
    · exact ⟨_, List.mem_cons_self _ _, hR⟩
    · obtain ⟨a, ha, hRa⟩ := ih b hb'
      exact ⟨a, List.mem_cons_of_mem _ ha, hRa⟩

theorem pairwise_of_forall2 {α β : Type} {R : α → β → Prop}
    {S : α → α → Prop} {T : β → β → Prop} {l1 : List α} {l2 : List β}
    (hf : List.Forall₂ R l1 l2) (hp : l1.Pairwise S)
    (himp : ∀ a ∈ l1, ∀ b ∈ l1, ∀ a' b', R a a' → R b b' → S a b → T a' b') :
    l2.Pairwise T := by
  induction hf with
  | nil => exact List.Pairwise.nil
  | @cons a a' l1' l2' hR hf' ih =>
    rcases List.pairwise_cons.mp hp with ⟨ha, hp'⟩
    refine List.pairwise_cons.mpr ⟨?_, ?_⟩
    · intro b' hb'
      obtain ⟨b, hb, hRb⟩ := forall2_mem_right hf' b' hb'
      exact himp a (List.mem_cons_self _ _) b (List.mem_cons_of_mem _ hb)
        a' b' hR hRb (ha b hb)
    · exact ih hp' (fun x hx y hy => himp x (List.mem_cons_of_mem _ hx)
        y (List.mem_cons_of_mem _ hy))

theorem forall2_append_trans {l1 l2 l3 : List (List Value)}
    (h12 : List.Forall₂ (fun a b => ∃ ex, b = a ++ ex) l1 l2)
    (h23 : List.Forall₂ (fun a b => ∃ ex, b = a ++ ex) l2 l3) :
    List.Forall₂ (fun a b => ∃ ex, b = a ++ ex) l1 l3 := by
  induction h12 generalizing l3 with
  | nil =>
    cases h23
    exact List.Forall₂.nil
  | @cons a b l1' l2' hab h12' ih =>
    cases h23 with
    | cons hbc h23' =>
      refine List.Forall₂.cons ?_ (ih h23')
      obtain ⟨ex1, rfl⟩ := hab
      obtain ⟨ex2, rfl⟩ := hbc
      exact ⟨ex1 ++ ex2, by rw [List.append_assoc]⟩

theorem addIdRows_forall2 (i : Nat) (rs : List (List Value)) :
    List.Forall₂ (fun b dr => ∃ ex, dr = b ++ ex) rs (addIdRows i rs) := by
  induction rs generalizing i with
  | nil => exact List.Forall₂.nil
  | cons r rs' ih =>
    exact List.Forall₂.cons ⟨[Value.num (i : Rat)], rfl⟩ (ih (i + 1))

theorem map_append_forall2 (rs : List (List Value)) (g : List Value → Value) :
    List.Forall₂ (fun b dr => ∃ ex, dr = b ++ ex) rs
      (rs.map (fun r => r ++ [g r])) := by
  induction rs with
  | nil => exact List.Forall₂.nil
  | cons r rs' ih => exact List.Forall₂.cons ⟨[g r], rfl⟩ ih

theorem addColBy_forall2 {base : List (List Value)} {df : DF}
    (hf : List.Forall₂ (fun b dr => ∃ ex, dr = b ++ ex) base df.rows)
    (name : String) (f : Value → Value) (src : String) :
    List.Forall₂ (fun b dr => ∃ ex, dr = b ++ ex) base
      (addColBy df name f src).rows :=
  forall2_append_trans hf
    (map_append_forall2 df.rows (fun r => f (getVal df.cols r src)))

theorem projDF_rows_length {df : DF} {cs : List String} :
    ∀ r ∈ (projDF df cs).rows, r.length = cs.length := by
  intro r hr
  simp only [projDF, List.mem_map] at hr
  obtain ⟨r0, _, rfl⟩ := hr
  simp

/-- The shared shape of the four dimension tables: columns are the
defining attributes followed by generated columns, rows extend the
distinct attribute tuples on the right. -/
theorem dim_facts {core dim : DF} {cs names : List String}
    (hnd : cs.Nodup)
    (hcols : dim.cols = cs ++ names)
    (hf2 : List.Forall₂ (fun b dr => ∃ ex, dr = b ++ ex)
      (keepFirstBy id (projDF core cs).rows) dim.rows) :
    dim.rows.Pairwise (fun a b => keyTuple dim.cols cs a ≠ keyTuple dim.cols cs b) ∧
    (∀ cr ∈ core.rows, ∃ dr ∈ dim.rows,
      keyTuple dim.cols cs dr = keyTuple core.cols cs cr) ∧
    dim.rows.length = distinctTuples core cs := by
  have hkey : ∀ b ∈ keepFirstBy id (projDF core cs).rows, ∀ dr : List Value,
      (∃ ex, dr = b ++ ex) → keyTuple dim.cols cs dr = b := by
    intro b hb dr hdr
    obtain ⟨ex, rfl⟩ := hdr
    have hbl : b.length = cs.length :=
      projDF_rows_length b (keepFirstBy_mem_iff.mp hb)
    rw [hcols]
    exact keyTuple_prefix hnd hbl
  refine ⟨?_, ?_, ?_⟩
  · refine pairwise_of_forall2 hf2 (keepFirstBy_pairwise id _) ?_
    intro a ha b hb a' b' hRa hRb hab
    rw [hkey a ha a' hRa, hkey b hb b' hRb]
    simpa using hab
  · intro cr hcr
    have hbmem : keyTuple core.cols cs cr ∈ (projDF core cs).rows := by
      simp only [projDF, List.mem_map]
      exact ⟨cr, hcr, rfl⟩
    have hbkeep : keyTuple core.cols cs cr ∈ keepFirstBy id (projDF core cs).rows :=
      keepFirstBy_mem_iff.mpr hbmem
    obtain ⟨dr, hdr, hRdr⟩ := forall2_mem_left hf2 _ hbkeep
    exact ⟨dr, hdr, hkey _ hbkeep dr hRdr⟩
  · rw [← hf2.length_eq, keepFirstBy_length_toFinset]
    rfl

theorem dimBase_forall2 (core : DF) (cs : List String) (idname : String) :
    List.Forall₂ (fun b dr => ∃ ex, dr = b ++ ex)
      (keepFirstBy id (projDF core cs).rows) (dimBase core cs idname).rows :=
  addIdRows_forall2 1 _

theorem dimTimeOf_forall2 (core : DF) :
    List.Forall₂ (fun b dr => ∃ ex, dr = b ++ ex)
      (keepFirstBy id (projDF core timeCols).rows) (dimTimeOf core).rows :=
  addColBy_forall2 (addColBy_forall2 (addColBy_forall2
    (dimBase_forall2 core timeCols "TIME_ID") _ _ _) _ _ _) _ _ _

theorem dimTimeOf_facts (core : DF) :
    (dimTimeOf core).rows.Pairwise (fun a b =>
      keyTuple (dimTimeOf core).cols timeCols a
        ≠ keyTuple (dimTimeOf core).cols timeCols b) ∧
    (∀ cr ∈ core.rows, ∃ dr ∈ (dimTimeOf core).rows,
      keyTuple (dimTimeOf core).cols timeCols dr = keyTuple core.cols timeCols cr) ∧
    (dimTimeOf core).rows.length = distinctTuples core timeCols :=
  @dim_facts core (dimTimeOf core) timeCols ["TIME_ID", "YEAR", "MONTH", "DAY"]
    (by decide) rfl (dimTimeOf_forall2 core)

theorem dimEmpresaOf_facts (core : DF) :
    (dimEmpresaOf core).rows.Pairwise (fun a b =>
      keyTuple (dimEmpresaOf core).cols empresaCols a
        ≠ keyTuple (dimEmpresaOf core).cols empresaCols b) ∧
    (∀ cr ∈ core.rows, ∃ dr ∈ (dimEmpresaOf core).rows,
      keyTuple (dimEmpresaOf core).cols empresaCols dr
        = keyTuple core.cols empresaCols cr) ∧
    (dimEmpresaOf core).rows.length = distinctTuples core empresaCols :=
  dim_facts (by decide) rfl (dimBase_forall2 core empresaCols "EMPRESA_ID")

theorem dimPaisOf_facts (core : DF) :
    (dimPaisOf core).rows.Pairwise (fun a b =>
      keyTuple (dimPaisOf core).cols paisCols a
        ≠ keyTuple (dimPaisOf core).cols paisCols b) ∧
    (∀ cr ∈ core.rows, ∃ dr ∈ (dimPaisOf core).rows,
      keyTuple (dimPaisOf core).cols paisCols dr = keyTuple core.cols paisCols cr) ∧
    (dimPaisOf core).rows.length = distinctTuples core paisCols :=
  dim_facts (by decide) rfl (dimBase_forall2 core paisCols "PAIS_ID")

theorem dimMercanciaOf_facts (core : DF) :
    (dimMercanciaOf core).rows.Pairwise (fun a b =>
      keyTuple (dimMercanciaOf core).cols mercanciaCols a
        ≠ keyTuple (dimMercanciaOf core).cols mercanciaCols b) ∧
    (∀ cr ∈ core.rows, ∃ dr ∈ (dimMercanciaOf core).rows,
      keyTuple (dimMercanciaOf core).cols mercanciaCols dr
        = keyTuple core.cols mercanciaCols cr) ∧
    (dimMercanciaOf core).rows.length = distinctTuples core mercanciaCols :=
  dim_facts (by decide) rfl (dimBase_forall2 core mercanciaCols "MERCANCIA_ID")

theorem sum_map_one {α : Type} (l : List α) :
    (l.map (fun _ => (1 : Nat))).sum = l.length := by
  induction l with
  | nil => rfl
  | cons a l' ih => simp [ih, Nat.add_comm]

theorem filter_key_length_one {α κ : Type} [DecidableEq κ] {f : α → κ}
    {l : List α} {t : κ}
    (hp : l.Pairwise (fun a b => f a ≠ f b)) (hx : ∃ x ∈ l, f x = t) :
    (l.filter (fun y => decide (f y = t))).length = 1 := by
  rw [← List.countP_eq_length_filter]
  exact countP_key_unique hp hx

/-- A many-to-one inner join: when the right side has pairwise
distinct key tuples and every left row finds a match, the join has
exactly one output row per left row. -/
theorem mergeDF_rows_length {l r : DF} {ks : List String}
    (hp : r.rows.Pairwise (fun a b => keyTuple r.cols ks a ≠ keyTuple r.cols ks b))
    (hex : ∀ lr ∈ l.rows, ∃ rr ∈ r.rows,
      keyTuple r.cols ks rr = keyTuple l.cols ks lr) :
    (mergeDF l r ks).rows.length = l.rows.length := by
  show (l.rows.flatMap _).length = l.rows.length
  rw [List.flatMap_def, List.length_flatten, List.map_map]
  have hone : ∀ lr ∈ l.rows,
      (List.length ∘ fun lr => (r.rows.filter (fun rr =>
          decide (keyTuple r.cols ks rr = keyTuple l.cols ks lr))).map
        (fun rr => lr ++ (r.cols.filter (fun c => !(ks.contains c))).map (getVal r.cols rr)))
        lr = (fun _ => (1 : Nat)) lr := by
    intro lr hlr
    simp only [Function.comp, List.length_map]
    exact filter_key_length_one hp (hex lr hlr)
  rw [List.map_congr_left hone, sum_map_one]

theorem mergeInv_init {core : DF} (hwf : core.Wf) : MergeInv core core :=
  ⟨⟨[], (List.append_nil _).symm⟩,
   fun lr hlr => ⟨hwf lr hlr, lr, hlr, fun _ _ => rfl⟩⟩

theorem mergeInv_step {core l dim : DF} {cs : List String}
    (hinv : MergeInv core l) (hsub : ∀ c ∈ cs, c ∈ core.cols)
    (hpair : dim.rows.Pairwise (fun a b =>
      keyTuple dim.cols cs a ≠ keyTuple dim.cols cs b))
    (hcomp : ∀ cr ∈ core.rows, ∃ dr ∈ dim.rows,
      keyTuple dim.cols cs dr = keyTuple core.cols cs cr) :
    MergeInv core (mergeDF l dim cs) ∧
      (mergeDF l dim cs).rows.length = l.rows.length := by
  obtain ⟨⟨E, hE⟩, hrows⟩ := hinv
  have hkeyl : ∀ lr ∈ l.rows, ∃ cr ∈ core.rows,
      keyTuple l.cols cs lr = keyTuple core.cols cs cr := by
    intro lr hlr
    obtain ⟨_, cr, hcr, hagree⟩ := hrows lr hlr
    refine ⟨cr, hcr, ?_⟩
    unfold keyTuple
    exact List.map_congr_left (fun c hc => hagree c (hsub c hc))
  have hex : ∀ lr ∈ l.rows, ∃ rr ∈ dim.rows,
      keyTuple dim.cols cs rr = keyTuple l.cols cs lr := by
    intro lr hlr
    obtain ⟨cr, hcr, hkey⟩ := hkeyl lr hlr
    obtain ⟨dr, hdr, hdkey⟩ := hcomp cr hcr
    exact ⟨dr, hdr, by rw [hdkey, hkey]⟩
  refine ⟨⟨⟨E ++ dim.cols.filter (fun c => !(cs.contains c)), ?_⟩, ?_⟩,
    mergeDF_rows_length hpair hex⟩
  · show l.cols ++ _ = core.cols ++ _
    rw [hE, List.append_assoc]
  · intro mr hmr
    simp only [mergeDF, List.mem_flatMap, List.mem_map, List.mem_filter] at hmr
    obtain ⟨lr, hlr, rr, ⟨_, _⟩, rfl⟩ := hmr
    obtain ⟨hlen, cr, hcr, hagree⟩ := hrows lr hlr
    constructor
    · show _ = (l.cols ++ _).length
      simp [hlen]
    · refine ⟨cr, hcr, ?_⟩
      intro c hc
      have hcl : c ∈ l.cols := by
        rw [hE]
        exact List.mem_append_left _ hc
      show getVal (l.cols ++ dim.cols.filter (fun c => !(cs.contains c)))
          (lr ++ (dim.cols.filter (fun c => !(cs.contains c))).map (getVal dim.cols rr)) c
        = getVal core.cols cr c
      rw [getVal_append_of_mem hcl hlen]
      exact hagree c hc

/-- Every integrated row joins against all four dimensions exactly
once, so the projected fact table has one row per core row. -/
theorem factOf_rows_length {core : DF} (hwf : core.Wf)
    (hsub : ∀ c ∈ semCols, c ∈ core.cols) :
    (factOf core).rows.length = core.rows.length := by
  have hsubT : ∀ c ∈ timeCols, c ∈ core.cols := fun c hc =>
    hsub c (List.mem_append_left _ (List.mem_append_left _
      (List.mem_append_left _ (List.mem_append_left _ hc))))
  have hsubE : ∀ c ∈ empresaCols, c ∈ core.cols := fun c hc =>
    hsub c (List.mem_append_left _ (List.mem_append_left _
      (List.mem_append_left _ (List.mem_append_right _ hc))))
  have hsubP : ∀ c ∈ paisCols, c ∈ core.cols := fun c hc =>
    hsub c (List.mem_append_left _ (List.mem_append_left _
      (List.mem_append_right _ hc)))
  have hsubM : ∀ c ∈ mercanciaCols, c ∈ core.cols := fun c hc =>
    hsub c (List.mem_append_left _ (List.mem_append_right _ hc))
  obtain ⟨hTp, hTc, _⟩ := dimTimeOf_facts core
  obtain ⟨hEp, hEc, _⟩ := dimEmpresaOf_facts core
  obtain ⟨hPp, hPc, _⟩ := dimPaisOf_facts core
  obtain ⟨hMp, hMc, _⟩ := dimMercanciaOf_facts core
  obtain ⟨hi1, he1⟩ := mergeInv_step (mergeInv_init hwf) hsubT hTp hTc
  obtain ⟨hi2, he2⟩ := mergeInv_step hi1 hsubE hEp hEc
  obtain ⟨hi3, he3⟩ := mergeInv_step hi2 hsubP hPp hPc
  obtain ⟨hi4, he4⟩ := mergeInv_step hi3 hsubM hMp hMc
  show (projDF _ factCols).rows.length = _
  unfold projDF
  simp only [List.length_map]
  rw [he4, he3, he2, he1]

theorem addIdRows_length (i : Nat) (rs : List (List Value)) :
    (addIdRows i rs).length = rs.length := by
  induction rs generalizing i with
  | nil => rfl
  | cons r rs' ih => simp [addIdRows, ih]

theorem getD_append_len {r : List Value} {n : Nat} {v d : Value}
    (h : r.length = n) : (r ++ [v]).getD n d = v := by
  rw [List.getD_append_right _ _ _ _ (Nat.le_of_eq h), h]
  simp

theorem addIdRows_getD {rs : List (List Value)} {n : Nat}
    (hlen : ∀ r ∈ rs, r.length = n) (i : Nat) :
    (addIdRows i rs).map (fun r => r.getD n .null)
      = (List.range rs.length).map (fun k : Nat => Value.num ((i : Rat) + (k : Rat))) := by
  induction rs generalizing i with
  | nil => rfl
  | cons r rs' ih =>
    simp only [addIdRows, List.map_cons, List.length_cons]
    rw [getD_append_len (hlen r (List.mem_cons_self _ _))]
    rw [ih (fun r' hr' => hlen r' (List.mem_cons_of_mem _ hr')) (i + 1)]
    rw [List.range_succ_eq_map, List.map_cons, List.map_map]
    refine List.cons_eq_cons.mpr ⟨?_, ?_⟩
    · simp
    · refine List.map_congr_left ?_
      intro k _
      simp only [Function.comp]
      refine congrArg Value.num ?_
      push_cast
      ring

theorem addIdRows_wf {rs : List (List Value)} {n : Nat}
    (hlen : ∀ r ∈ rs, r.length = n) {i : Nat} :
    ∀ r' ∈ addIdRows i rs, r'.length = n + 1 := by
  induction rs generalizing i with
  | nil => intro r' hr'; simp [addIdRows] at hr'
  | cons r rs' ih =>
    intro r' hr'
    rcases List.mem_cons.mp hr' with rfl | hr''
    · simp [hlen r (List.mem_cons_self _ _)]
    · exact ih (fun b hb => hlen b (List.mem_cons_of_mem _ hb)) r' hr''

theorem dimBase_wf (core : DF) (cs : List String) (idname : String) :
    (dimBase core cs idname).Wf := by
  intro r hr
  have hbase : ∀ b ∈ keepFirstBy id (projDF core cs).rows, b.length = cs.length :=
    fun b hb => projDF_rows_length b (keepFirstBy_mem_iff.mp hb)
  have := addIdRows_wf hbase r hr
  simpa [dimBase, addIdCol] using this

theorem addColBy_wf {df : DF} {name : String} {f : Value → Value} {src : String}
    (hwf : df.Wf) : (addColBy df name f src).Wf := by
  intro r hr
  simp only [addColBy, List.mem_map] at hr
  obtain ⟨r0, hr0, rfl⟩ := hr
  simp [addColBy, hwf r0 hr0]

theorem addColBy_rows_length (df : DF) (name : String) (f : Value → Value)
    (src : String) : (addColBy df name f src).rows.length = df.rows.length := by
  simp [addColBy]

theorem colValues_addColBy_old {df : DF} {name : String} {f : Value → Value}
    {src c : String} (hmem : c ∈ df.cols) (hwf : df.Wf) :
    colValues (addColBy df name f src) c = colValues df c := by
  unfold colValues addColBy
  simp only [List.map_map]
  refine List.map_congr_left ?_
  intro r hr
  exact getVal_append_of_mem hmem (hwf r hr)

/-- The surrogate key column of a freshly keyed dimension is
`[1, 2, ..., n]`. -/
theorem colValues_dimBase_id (core : DF) (cs : List String) (idname : String)
    (hnot : idname ∉ cs) :
    colValues (dimBase core cs idname) idname
      = (List.range (dimBase core cs idname).rows.length).map
          (fun k : Nat => Value.num ((k : Rat) + 1)) := by
  have hbase : ∀ b ∈ keepFirstBy id (projDF core cs).rows, b.length = cs.length :=
    fun b hb => projDF_rows_length b (keepFirstBy_mem_iff.mp hb)
  have hidx : colIdx (cs ++ [idname]) idname = some cs.length :=
    colIdx_append_cons_self hnot
  have e1 : colValues (dimBase core cs idname) idname
      = (addIdRows 1 (keepFirstBy id (projDF core cs).rows)).map
          (fun r => r.getD cs.length .null) := by
    unfold colValues dimBase addIdCol dropDupRows projDF
    dsimp only
    refine List.map_congr_left ?_
    intro r _
    unfold getVal
    rw [hidx]
  rw [e1, addIdRows_getD hbase 1]
  have e2 : (dimBase core cs idname).rows.length
      = (keepFirstBy id (projDF core cs).rows).length := addIdRows_length 1 _
  rw [e2]
  refine List.map_congr_left ?_
  intro k _
  refine congrArg Value.num ?_
  ring

theorem build_ok_elim {core : DF} {L : SemLayer}
    (h : build_semantic_layer core = .ok (some L)) :
    core.isEmptyDF = false ∧ (semCols.all (fun c => core.cols.contains c)) = true ∧
      L = ⟨dimTimeOf core, dimEmpresaOf core, dimPaisOf core,
        dimMercanciaOf core, factOf core⟩ := by
  unfold build_semantic_layer at h
  cases hemp : core.isEmptyDF with
  | true =>
    simp only [hemp, if_true] at h
    exact absurd (Except.ok.inj h) (by simp)
  | false =>
    simp only [hemp, Bool.false_eq_true, if_false] at h
    cases hall : semCols.all (fun c => core.cols.contains c) with
    | true =>
      simp only [hall, if_true] at h
      exact ⟨rfl, rfl, (Option.some.inj (Except.ok.inj h)).symm⟩
    | false =>
      simp only [hall, Bool.false_eq_true, if_false] at h
      exact Except.noConfusion h

theorem mem_of_contains {l : List String} {c : String}
    (h : l.contains c = true) : c ∈ l := by
  simpa using h

theorem fact_length_aux {core : DF} {L : SemLayer} (hwf : core.Wf)
    (h : build_semantic_layer core = .ok (some L)) :
    L.fact.rows.length = core.rows.length := by
  obtain ⟨_, hall, rfl⟩ := build_ok_elim h
  exact factOf_rows_length hwf
    (fun c hc => mem_of_contains (List.all_eq_true.mp hall c hc))

/-- C4: for each of the four dimension tables built from a non-empty
integrated frame, the surrogate key column is exactly `[1, ..., n]`
(unique integers starting at 1 with no gaps) and the table has exactly
one row per distinct defining-attribute tuple of the integrated frame.
`FechaTyped` records that the date column is typed as the transform
stage leaves it, which pandas' `.dt` accessors require. -/
theorem build_dims_surrogate {core : DF} {L : SemLayer}
    (_hft : FechaTyped core)
    (h : build_semantic_layer core = .ok (some L)) :
    (colValues L.dim_time "TIME_ID"
        = (List.range L.dim_time.rows.length).map (fun k : Nat => Value.num ((k : Rat) + 1)) ∧
      L.dim_time.rows.length = distinctTuples core timeCols) ∧
    (colValues L.dim_empresa "EMPRESA_ID"
        = (List.range L.dim_empresa.rows.length).map (fun k : Nat => Value.num ((k : Rat) + 1)) ∧
      L.dim_empresa.rows.length = distinctTuples core empresaCols) ∧
    (colValues L.dim_pais "PAIS_ID"
        = (List.range L.dim_pais.rows.length).map (fun k : Nat => Value.num ((k : Rat) + 1)) ∧
      L.dim_pais.rows.length = distinctTuples core paisCols) ∧
    (colValues L.dim_mercancia "MERCANCIA_ID"
        = (List.range L.dim_mercancia.rows.length).map (fun k : Nat => Value.num ((k : Rat) + 1)) ∧
      L.dim_mercancia.rows.length = distinctTuples core mercanciaCols) := by
  obtain ⟨_, _, rfl⟩ := build_ok_elim h
  refine ⟨⟨?_, (dimTimeOf_facts core).2.2⟩,
    ⟨?_, (dimEmpresaOf_facts core).2.2⟩,
    ⟨?_, (dimPaisOf_facts core).2.2⟩,
    ⟨?_, (dimMercanciaOf_facts core).2.2⟩⟩
  · have hwfB := dimBase_wf core timeCols "TIME_ID"
    have hwfY : (addColBy (dimBase core timeCols "TIME_ID") "YEAR" dtYear fechaCol).Wf :=
      addColBy_wf hwfB
    have hwfM : (addColBy (addColBy (dimBase core timeCols "TIME_ID") "YEAR" dtYear
        fechaCol) "MONTH" dtMonth fechaCol).Wf := addColBy_wf hwfY
    have hmemB : "TIME_ID" ∈ (dimBase core timeCols "TIME_ID").cols := by
      show "TIME_ID" ∈ timeCols ++ ["TIME_ID"]
      decide
    have hmemY : "TIME_ID" ∈ (addColBy (dimBase core timeCols "TIME_ID") "YEAR"
        dtYear fechaCol).cols := List.mem_append_left _ hmemB
    have hmemM : "TIME_ID" ∈ (addColBy (addColBy (dimBase core timeCols "TIME_ID")
        "YEAR" dtYear fechaCol) "MONTH" dtMonth fechaCol).cols :=
      List.mem_append_left _ hmemY
    unfold dimTimeOf
    rw [colValues_addColBy_old hmemM hwfM, colValues_addColBy_old hmemY hwfY,
      colValues_addColBy_old hmemB hwfB,
      addColBy_rows_length, addColBy_rows_length, addColBy_rows_length]
    exact colValues_dimBase_id core timeCols "TIME_ID" (by decide)
  · exact colValues_dimBase_id core empresaCols "EMPRESA_ID" (by decide)
  · exact colValues_dimBase_id core paisCols "PAIS_ID" (by decide)
  · exact colValues_dimBase_id core mercanciaCols "MERCANCIA_ID" (by decide)

/-- C5: the fact table built from a non-empty integrated frame has at
most as many rows as the integrated frame: each inner join is
many-to-one against a deduplicated dimension, so the join sequence
never adds rows.  (`FechaTyped`/`GenDisjoint` pin the model to the
frames the pipeline actually produces: a datetime-typed date column
and no pre-existing surrogate-key labels.) -/
theorem fact_rows_le_core {core : DF} {L : SemLayer}
    (hwf : core.Wf) (_hft : FechaTyped core) (_hdisj : GenDisjoint core)
    (h : build_semantic_layer core = .ok (some L)) :
    L.fact.rows.length ≤ core.rows.length :=
  Nat.le_of_eq (fact_length_aux hwf h)

/-- C8: the fact table row count equals the integrated row count
exactly: each dimension is the distinct projection of the same frame,
the merge matches null join keys (e.g. unparsable dates) to each
other, so every integrated record — including records with null
attributes — joins against all four dimensions exactly once. -/
theorem fact_rows_eq_core {core : DF} {L : SemLayer}
    (hwf : core.Wf) (_hft : FechaTyped core) (_hdisj : GenDisjoint core)
    (h : build_semantic_layer core = .ok (some L)) :
    L.fact.rows.length = core.rows.length :=
  fact_length_aux hwf h

theorem fact_rows_le_core_witness :
    (core0.Wf ∧ FechaTyped core0 ∧ GenDisjoint core0 ∧
      build_semantic_layer core0 = .ok (some layer0)) ∧
    layer0.fact.rows.length ≤ core0.rows.length :=
  ⟨⟨by decide, by decide, by decide, by decide⟩,
   fact_rows_le_core (by decide) (by decide) (by decide) (by decide)⟩

theorem fact_rows_eq_core_witness :
    (core0.Wf ∧ FechaTyped core0 ∧ GenDisjoint core0 ∧
      build_semantic_layer core0 = .ok (some layer0)) ∧
    layer0.fact.rows.length = core0.rows.length :=
  ⟨⟨by decide, by decide, by decide, by decide⟩,
   fact_rows_eq_core (by decide) (by decide) (by decide) (by decide)⟩

theorem build_dims_surrogate_witness :
    (FechaTyped core0 ∧ build_semantic_layer core0 = .ok (some layer0)) ∧
    (colValues layer0.dim_time "TIME_ID"
        = (List.range layer0.dim_time.rows.length).map
            (fun k : Nat => Value.num ((k : Rat) + 1)) ∧
      layer0.dim_time.rows.length = distinctTuples core0 timeCols) ∧
    (colValues layer0.dim_empresa "EMPRESA_ID"
        = (List.range layer0.dim_empresa.rows.length).map
            (fun k : Nat => Value.num ((k : Rat) + 1)) ∧
      layer0.dim_empresa.rows.length = distinctTuples core0 empresaCols) :=
  ⟨⟨by decide, by decide⟩,
   (build_dims_surrogate (by decide) (by decide)).1,
   (build_dims_surrogate (by decide) (by decide)).2.1⟩

theorem fillZero_ne_null (w : Value) : fillZero w ≠ Value.null := by
  unfold fillZero
  by_cases hw : w = Value.null
  · simp [hw]
  · simp [hw]

theorem fillUnknown_ne_null (w : Value) : fillUnknown w ≠ Value.null := by
  unfold fillUnknown
  by_cases hw : w = Value.null
  · simp [hw]
  · simp [hw]

theorem dedupStage_wf {staging : List DF} {pre : DF}
    (h : dedupStage staging = some pre) : pre.Wf := by
  obtain ⟨c2, hp, rfl⟩ := dedupStage_elim h
  obtain ⟨c1, hk, hparse⟩ := parsedStage_elim hp
  obtain ⟨hr, _⟩ := keyedStage_elim hk
  obtain ⟨hc2, _⟩ := parseDateCol_elim hparse
  have h1 : c1.Wf := reconStage_wf hr
  have h2 : c2.Wf := hc2 ▸ setColIfPresent_wf _ _ h1
  exact dedupKeys_wf (coerceNumerics_wf h2)

/-- C6: in the frame `transform_to_core` returns, every present
measure column is null-free (nulls became 0), the
destination-country-name column, when present, is null-free (nulls
became "Unknown"), and every other column is exactly as the
deduplication stage left it — nulls elsewhere are untouched. -/
theorem transform_null_fill {staging : List DF} {log : List LogEvent} {out : DF}
    (h : transform_to_core staging = (log, .ok out)) :
    (∀ c ∈ numericCols, c ∈ out.cols → ∀ v ∈ colValues out c, v ≠ Value.null) ∧
    ("PAIS_DESTINO_FINAL" ∈ out.cols →
      ∀ v ∈ colValues out "PAIS_DESTINO_FINAL", v ≠ Value.null) ∧
    (∀ pre, dedupStage staging = some pre → out = fillNulls pre ∧
      ∀ c, c ∉ numericCols → c ≠ "PAIS_DESTINO_FINAL" →
        colValues out c = colValues pre c) := by
  rcases transform_ok_cases h with ⟨rfl, hnone⟩ | ⟨pre, hpre, rfl, _⟩
  · refine ⟨?_, ?_, ?_⟩
    · intro c _ hc
      exact absurd hc (by simp [emptyDF])
    · intro hc
      exact absurd hc (by simp [emptyDF])
    · intro pre hpre
      rw [hnone] at hpre
      exact Option.noConfusion hpre
  · have hwf : pre.Wf := dedupStage_wf hpre
    have hpais_notnum : "PAIS_DESTINO_FINAL" ∉ numericCols := by decide
    refine ⟨?_, ?_, ?_⟩
    · intro c hcnum hccols v hv
      have hcne : c ≠ "PAIS_DESTINO_FINAL" := fun hh => hpais_notnum (hh ▸ hcnum)
      have hccols' : c ∈ pre.cols := by
        rw [← fillNulls_cols pre]
        exact hccols
      have e1 : colValues (fillNulls pre) c = (colValues pre c).map fillZero := by
        unfold fillNulls
        rw [colValues_setColIfPresent_ne hcne,
          colValues_foldlSet_mem (by decide) hcnum hccols' hwf]
      rw [e1] at hv
      obtain ⟨w, _, rfl⟩ := List.mem_map.mp hv
      exact fillZero_ne_null w
    · intro hccols v hv
      have hccols' : "PAIS_DESTINO_FINAL" ∈ pre.cols := by
        rw [← fillNulls_cols pre]
        exact hccols
      have hccols'' : "PAIS_DESTINO_FINAL" ∈
          (numericCols.foldl (fun d c => setColIfPresent d c fillZero) pre).cols := by
        rw [foldlSet_cols]
        exact hccols'
      have e1 : colValues (fillNulls pre) "PAIS_DESTINO_FINAL"
          = (colValues (numericCols.foldl (fun d c => setColIfPresent d c fillZero) pre)
              "PAIS_DESTINO_FINAL").map fillUnknown := by
        unfold fillNulls
        rw [colValues_setColIfPresent_self hccols'' (foldlSet_wf _ _ hwf)]
      rw [e1] at hv
      obtain ⟨w, _, rfl⟩ := List.mem_map.mp hv
      exact fillUnknown_ne_null w
    · intro pre' hpre'
      have : pre' = pre := Option.some.inj (hpre'.symm.trans hpre)
      subst this
      refine ⟨rfl, ?_⟩
      intro c hcnum hcpais
      unfold fillNulls
      rw [colValues_setColIfPresent_ne hcpais, colValues_foldlSet_ne hcnum]

theorem transform_null_fill_witness :
    (∀ v ∈ colValues outFill "VALOR_FOB_USD", v ≠ Value.null) ∧
    (∀ v ∈ colValues outFill "PAIS_DESTINO_FINAL", v ≠ Value.null) ∧
    colValues outFill "FECHA_DECLARACION_EXPORTACION"
      = colValues preFill "FECHA_DECLARACION_EXPORTACION" := by
  have H := @transform_null_fill stagingFill [] outFill (by decide)
  refine ⟨?_, ?_, ?_⟩
  · exact H.1 "VALOR_FOB_USD" (by decide) (by decide)
  · exact H.2.1 (by decide)
  · exact (H.2.2 preFill (by decide)).2 "FECHA_DECLARACION_EXPORTACION"
      (by decide) (by decide)

theorem getD_dfs_set_ne {l : List DF} {j : Nat} {d : DF} {i : Nat} (h : i ≠ j) :
    (l.set j d).getD i emptyDF = l.getD i emptyDF := by
  simp only [List.getD_eq_getElem?_getD]
  rw [List.getElem?_set_ne (Ne.symm h)]

theorem getD_dfs_append {l : List DF} {d : DF} {i : Nat} (h : i < l.length) :
    (l ++ [d]).getD i emptyDF = l.getD i emptyDF :=
  List.getD_append _ _ _ _ h

theorem fb_refl {n : Nat} {s : Store} (h : n ≤ s.dfs.length) : FB n s s :=
  ⟨h, fun _ _ => rfl⟩

theorem fb_trans {n : Nat} {s s' s'' : Store} (h1 : FB n s s') (h2 : FB n s' s'') :
    FB n s s'' :=
  ⟨h2.1, fun i hi => (h2.2 i hi).trans (h1.2 i hi)⟩

theorem fb_alloc {n : Nat} {s : Store} (d : DF) (h : n ≤ s.dfs.length) :
    FB n s (s.allocDF d).1 := by
  refine ⟨?_, ?_⟩
  · show n ≤ (s.dfs ++ [d]).length
    simp only [List.length_append, List.length_cons, List.length_nil]
    omega
  · intro i hi
    exact getD_dfs_append (Nat.lt_of_lt_of_le hi h)

theorem alloc_ref_ge {n : Nat} {s : Store} (d : DF) (h : n ≤ s.dfs.length) :
    n ≤ (s.allocDF d).2 := h

theorem fb_write {n : Nat} {s : Store} {j : Nat} (d : DF)
    (h : n ≤ s.dfs.length) (hj : n ≤ j) : FB n s (s.writeDF j d) := by
  refine ⟨?_, ?_⟩
  · show n ≤ (s.dfs.set j d).length
    simp only [List.length_set]
    exact h
  · intro i hi
    exact getD_dfs_set_ne (by omega)

theorem fb_idWrite {n : Nat} {s : Store} {a : Store × Nat} {idname : String}
    (h : FB n s a.1) (ha : n ≤ a.2) :
    FB n s (idWrite a idname).1 ∧ n ≤ (idWrite a idname).2 :=
  ⟨fb_trans h (fb_write _ h.1 ha), ha⟩

theorem fb_allocDim {n : Nat} {s : Store} {cdf : DF} {cs : List String}
    {idname : String} (h : n ≤ s.dfs.length) :
    FB n s (allocDim s cdf cs idname).1 ∧ n ≤ (allocDim s cdf cs idname).2 :=
  fb_idWrite (fb_alloc _ h) (alloc_ref_ge _ h)

theorem fb_derWrite {n : Nat} {s0 s : Store} {t : Nat} {name : String}
    {f : Value → Value} (h : FB n s0 s) (ht : n ≤ t) :
    FB n s0 (derWrite s t name f) :=
  fb_trans h (fb_write _ h.1 ht)

theorem fb_addTimeDerived {n : Nat} {s0 s : Store} {t : Nat}
    (h : FB n s0 s) (ht : n ≤ t) : FB n s0 (addTimeDerived s t) :=
  fb_derWrite (fb_derWrite (fb_derWrite h ht) ht) ht

theorem fb_stageTime {n : Nat} {s : Store} {cdf : DF} (h : n ≤ s.dfs.length) :
    FB n s (stageTime s cdf).1 ∧ n ≤ (stageTime s cdf).2 := by
  obtain ⟨hfb, hr⟩ := @fb_allocDim n s cdf timeCols "TIME_ID" h
  exact ⟨fb_addTimeDerived hfb hr, hr⟩

theorem fb_factStep {n : Nat} {s : Store} {b : Store × Nat} {r : Nat}
    {ks : List String} (h : FB n s b.1) : FB n s (factStep b r ks).1 :=
  fb_trans h (fb_alloc _ h.1)

theorem fb_stageFactMerges {n : Nat} {s : Store} {core t e p m : Nat}
    (h : n ≤ s.dfs.length) : FB n s (stageFactMerges s core t e p m).1 :=
  fb_factStep (fb_factStep (fb_factStep (fb_alloc _ h)))

/-- C10: `build_semantic_layer` does not modify the integrated frame
it is given.  Whatever path the heap-level builder takes — empty-core
no-op, a KeyError partway through, or a complete build — every heap
cell that existed before the call, in particular the one holding the
caller's integrated frame, is unchanged afterwards. -/
theorem build_state_preserves_core (s : Store) (core : Nat) :
    ((buildSemState s core).1).dfs.getD core emptyDF = s.dfs.getD core emptyDF := by
  by_cases hcore : core < s.dfs.length
  case neg =>
    have hread : s.readDF core = emptyDF := by
      unfold Store.readDF
      exact List.getD_eq_default _ _ (Nat.le_of_not_lt hcore)
    unfold buildSemState
    rw [hread]
    rfl
  case pos =>
    have hn : core + 1 ≤ s.dfs.length := hcore
    have hfb : FB (core + 1) s (buildSemState s core).1 := by
      unfold buildSemState
      split
      · exact fb_refl hn
      split
      case isFalse => exact fb_refl hn
      case isTrue =>
        split
        next s4 t hT =>
          have hfbT : FB (core + 1) s s4 ∧ core + 1 ≤ t := by
            have h1 := @fb_stageTime (core + 1) s (s.readDF core) hn
            rw [hT] at h1
            exact h1
          split
          case isFalse => exact hfbT.1
          case isTrue =>
            split
            next s5 e hE =>
              have hfbE : FB (core + 1) s4 s5 := by
                have h1 := (@fb_allocDim (core + 1) s4 (s.readDF core)
                  empresaCols "EMPRESA_ID" hfbT.1.1).1
                rw [hE] at h1
                exact h1
              split
              case isFalse => exact fb_trans hfbT.1 hfbE
              case isTrue =>
                split
                next s6 p hP =>
                  have hfbP : FB (core + 1) s5 s6 := by
                    have h1 := (@fb_allocDim (core + 1) s5 (s.readDF core)
                      paisCols "PAIS_ID" hfbE.1).1
                    rw [hP] at h1
                    exact h1
                  split
                  case isFalse => exact fb_trans hfbT.1 (fb_trans hfbE hfbP)
                  case isTrue =>
                    split
                    next s7 m hM =>
                      have hfbM : FB (core + 1) s6 s7 := by
                        have h1 := (@fb_allocDim (core + 1) s6 (s.readDF core)
                          mercanciaCols "MERCANCIA_ID" hfbP.1).1
                        rw [hM] at h1
                        exact h1
                      split
                      next s11 f4 hF =>
                        have hfbF : FB (core + 1) s7 s11 := by
                          have h1 := @fb_stageFactMerges (core + 1) s7 core t e p m hfbM.1
                          rw [hF] at h1
                          exact h1
                        have hall : FB (core + 1) s s11 :=
                          fb_trans hfbT.1 (fb_trans hfbE (fb_trans hfbP
                            (fb_trans hfbM hfbF)))
                        split
                        case isFalse => exact hall
                        case isTrue =>
                          split
                          next s12 f hproj =>
                            have h1 := fb_alloc
                              (projDF (s11.readDF f4) factCols) hall.1
                            rw [hproj] at h1
                            exact fb_trans hall h1
    exact hfb.2 core (Nat.lt_succ_self core)

end DW
